import Mathlib

/-!
Verification of the category-based pattern matching and rewriting engine of
the krep repository (src/topics/pattern.py).  Strings are modelled as lists
of characters; Python dictionaries (which preserve insertion order and key
uniqueness) are modelled as association lists; the fixed regular expressions
and the user-supplied patterns handled by the `re` module are executed by a
small NFA over the fragment actually used (literal characters, '.',
complemented single-character classes and postfix '*').  Fallible paths
(CPython exceptions such as re.sub on a None pattern) are modelled with
Option.
-/

abbrev PyStr := List Char

def pys (s : String) : PyStr := s.data

/-- Python str.strip's default whitespace characters. -/
def isPySpace (c : Char) : Bool :=
  c = ' ' || c = '\t' || c = '\n' || c = '\x0d' || c = '\x0b' || c = '\x0c'

/-- Python str.strip(). -/
def pyStrip (s : PyStr) : PyStr :=
  ((s.dropWhile isPySpace).reverse.dropWhile isPySpace).reverse

/-- Python str.split(d) for a one-character separator. -/
def splitChar (d : Char) : PyStr → List PyStr
  | [] => [[]]
  | c :: rest =>
    if c = d then [] :: splitChar d rest
    else
      match splitChar d rest with
      | piece :: more => (c :: piece) :: more
      | [] => [[c]]

/-- Python d.join(pieces) for a one-character separator. -/
def joinChar (d : Char) : List PyStr → PyStr
  | [] => []
  | [x] => x
  | x :: xs => x ++ d :: joinChar d xs

/-- Position of the first occurrence of a character (Python str.find, with
none for -1). -/
def indexOfChar (d : Char) : PyStr → Option Nat
  | [] => none
  | c :: rest => if c = d then some 0 else (indexOfChar d rest).map (· + 1)

/-- Python s.find(d) > 0. -/
def findGtZero (d : Char) (s : PyStr) : Bool :=
  match indexOfChar d s with
  | some (_ + 1) => true
  | _ => false

/-- Python s.split(d, 1) when d occurs in s: the parts before and after the
first occurrence. -/
def splitOnce (d : Char) : PyStr → PyStr × PyStr
  | [] => ([], [])
  | c :: rest =>
    if c = d then ([], rest)
    else
      let p := splitOnce d rest
      (c :: p.1, p.2)

def startsWithCh (d : Char) : PyStr → Bool
  | c :: _ => c = d
  | [] => false

def lowerStr (s : PyStr) : PyStr := s.map Char.toLower

section AssocList

variable {κ β : Type} [DecidableEq κ]

/-- d[k] lookup (none for a missing key). -/
def alGet (k : κ) : List (κ × β) → Option β
  | [] => none
  | kv :: rest => if kv.1 = k then some kv.2 else alGet k rest

/-- k in d. -/
def alContains (k : κ) (l : List (κ × β)) : Bool := (alGet k l).isSome

/-- d[k] = v: replaces in place, else appends (Python dict semantics). -/
def alSet (k : κ) (v : β) : List (κ × β) → List (κ × β)
  | [] => [(k, v)]
  | kv :: rest => if kv.1 = k then (k, v) :: rest else kv :: alSet k v rest

/-- In-place update of an existing entry; no-op when the key is absent. -/
def alUpdate (k : κ) (f : β → β) : List (κ × β) → List (κ × β)
  | [] => []
  | kv :: rest => if kv.1 = k then (kv.1, f kv.2) :: rest else kv :: alUpdate k f rest

end AssocList

/-! ### The regular-expression fragment used by pattern.py -/

/-- One regex atom: a literal character, '.', or a class [^c]. -/
inductive RAtom where
  | chr (c : Char)
  | dot
  | notChr (c : Char)
deriving DecidableEq

def atomMatch : RAtom → Char → Bool
  | .chr d, c => d = c
  | .dot, _ => true
  | .notChr d, c => ¬ d = c

/-- Parse a pattern string into a sequence of atoms, each optionally starred.
Covers the constructs pattern.py actually passes to `re`. -/
def parseRegex : PyStr → List (RAtom × Bool)
  | [] => []
  | '[' :: '^' :: c :: ']' :: '*' :: rest => (.notChr c, true) :: parseRegex rest
  | '[' :: '^' :: c :: ']' :: rest => (.notChr c, false) :: parseRegex rest
  | '.' :: '*' :: rest => (.dot, true) :: parseRegex rest
  | '.' :: rest => (.dot, false) :: parseRegex rest
  | c :: '*' :: rest => (.chr c, true) :: parseRegex rest
  | c :: rest => (.chr c, false) :: parseRegex rest

/-- States reachable from offset n (whose pattern suffix is given) without
consuming input: skip over any leading starred atoms. -/
def nfaClosure : List (RAtom × Bool) → Nat → List Nat
  | [], n => [n]
  | (_, true) :: rest, n => n :: nfaClosure rest (n + 1)
  | (_, false) :: _, n => [n]

/-- Successor states of state i after consuming character c. -/
def stepAt (ps : List (RAtom × Bool)) (i : Nat) (c : Char) : List Nat :=
  match ps.drop i with
  | [] => []
  | (a, true) :: _ => if atomMatch a c then nfaClosure (ps.drop i) i else []
  | (a, false) :: rest => if atomMatch a c then nfaClosure rest (i + 1) else []

def nfaStep (ps : List (RAtom × Bool)) (S : List Nat) (c : Char) : List Nat :=
  S.flatMap (fun i => stepAt ps i c)

/-- True when the accepting state is reached at some point while consuming a
prefix of the input: the pattern matches some prefix. -/
def nfaRun (ps : List (RAtom × Bool)) (acc : Nat) : List Nat → List Char → Bool
  | S, [] => S.contains acc
  | S, c :: cs => S.contains acc || nfaRun ps acc (nfaStep ps S c) cs

def nfaAccepts (ps : List (RAtom × Bool)) (cs : List Char) : Bool :=
  nfaRun ps ps.length (nfaClosure ps 0) cs

/-- Python re.match(p, s) as a boolean: p matches a prefix of s. -/
def reMatch (p s : PyStr) : Bool := nfaAccepts (parseRegex p) s

def searchGo (ps : List (RAtom × Bool)) : List Char → Bool
  | [] => nfaAccepts ps []
  | c :: cs => nfaAccepts ps (c :: cs) || searchGo ps cs

/-- Python re.search(p, s) as a boolean: p matches somewhere inside s. -/
def reSearch (p s : PyStr) : Bool := searchGo (parseRegex p) s

/-- Length of the longest prefix of the input matched by the pattern. -/
def nfaRunLen (ps : List (RAtom × Bool)) (acc : Nat) :
    List Nat → List Char → Nat → Option Nat
  | S, [], pos => if S.contains acc then some pos else none
  | S, c :: cs, pos =>
    match nfaRunLen ps acc (nfaStep ps S c) cs (pos + 1) with
    | some n => some n
    | none => if S.contains acc then some pos else none

def matchLen (ps : List (RAtom × Bool)) (cs : List Char) : Option Nat :=
  nfaRunLen ps ps.length (nfaClosure ps 0) cs 0

/-- Python re.sub: replace each non-overlapping leftmost match; after an
empty match the scan advances by one character. -/
def reSubGo (ps : List (RAtom × Bool)) (repl : PyStr) : Nat → List Char → PyStr
  | 0, cs => cs
  | fuel + 1, cs =>
    match matchLen ps cs with
    | none =>
      match cs with
      | [] => []
      | c :: cs' => c :: reSubGo ps repl fuel cs'
    | some 0 =>
      match cs with
      | [] => repl
      | c :: cs' => repl ++ c :: reSubGo ps repl fuel cs'
    | some (n + 1) => repl ++ reSubGo ps repl fuel (cs.drop (n + 1))

def reSub (p repl s : PyStr) : PyStr := reSubGo (parseRegex p) repl (s.length + 1) s

/-! ### PatternItem (src/topics/pattern.py lines 10-159) -/

/-- namedtuple PatternReplaceItem('pattern,subst,cont'); the pattern slot is
items[1] or self.name, which CPython leaves as None when both are empty. -/
structure PatternReplaceItem where
  pattern : Option PyStr
  subst : PyStr
  cont : Bool
deriving DecidableEq

structure PatternItem where
  category : Option PyStr
  name : Option PyStr
  cont : Bool
  incl : List PyStr
  excl : List PyStr
  subst : List PatternReplaceItem
deriving DecidableEq

/-- PatternItem.__len__. -/
def itemLen (it : PatternItem) : Nat :=
  it.incl.length + it.excl.length + it.subst.length

/-- PatternItem.ensure_category: strips the first matching suffix among
'-rp', '-replace', '-replacement'. -/
def ensureCategory (name : PyStr) : PyStr :=
  if name ≠ [] ∧ (pys "-rp").isSuffixOf name then name.take (name.length - 3)
  else if name ≠ [] ∧ (pys "-replace").isSuffixOf name then name.take (name.length - 8)
  else if name ≠ [] ∧ (pys "-replacement").isSuffixOf name then name.take (name.length - 12)
  else name

def replaceRegex1 : List (RAtom × Bool) := parseRegex (pys "=[^=]*=[^=]*=")

def replaceRegex2 : List (RAtom × Bool) := parseRegex (pys "~[^~]*~[^~]*~")

/-- PatternItem.is_replace_str. -/
def is_replace_str (value : PyStr) : Bool :=
  if value ≠ [] ∧ (startsWithCh '=' value || startsWithCh '~' value) then
    nfaAccepts replaceRegex1 value || nfaAccepts replaceRegex2 value
  else false

/-- PatternItem.split: classify the comma-separated tokens into includes,
excludes and substitution triples.  selfName stands for self.name. -/
def splitGo (selfName : Option PyStr) (cont : Option Bool) :
    List PyStr → List PyStr × List PyStr × List PatternReplaceItem
  | [] => ([], [], [])
  | t :: ts =>
    let t := pyStrip t
    let rec' := splitGo selfName cont ts
    if is_replace_str t then
      match (match t with | c :: _ => splitChar c t | [] => []) with
      | [_, p, sb, _] =>
        (rec'.1, rec'.2.1,
          ⟨if p = [] then selfName else some p, sb,
           cont.getD (startsWithCh '=' t)⟩ :: rec'.2.2)
      | _ => rec'
    else if startsWithCh '!' t then (rec'.1, t.drop 1 :: rec'.2.1, rec'.2.2)
    else if t ≠ [] then (t :: rec'.1, rec'.2.1, rec'.2.2)
    else rec'

def splitPatterns (selfName : Option PyStr) (patterns : PyStr) (cont : Option Bool) :
    List PyStr × List PyStr × List PatternReplaceItem :=
  splitGo selfName cont (splitChar ',' (pyStrip patterns))

/-- PatternItem.add(patterns, exclude, subst, cont). -/
def PatternItem.add (it : PatternItem) (patterns : PyStr) (exclude : Bool)
    (sub : Option PatternReplaceItem) (cont : Option Bool) : PatternItem :=
  let ier := splitPatterns it.name patterns cont
  let inc := if exclude then ier.2.1 else ier.1
  let exc := if exclude then ier.1 else ier.2.1
  ⟨it.category, it.name, it.cont, it.incl ++ inc, it.excl ++ exc,
   it.subst ++ ier.2.2 ++ (match sub with | some s => [s] | none => [])⟩

/-- PatternItem.__init__(category, patterns, exclude, name): patterns is
only parsed when truthy (non-None, non-empty). -/
def mkPatternItem (category : Option PyStr) (patterns : Option PyStr)
    (exclude : Bool) (name : Option PyStr) : PatternItem :=
  let base : PatternItem := ⟨category, name, false, [], [], []⟩
  match patterns with
  | some p => if p ≠ [] then base.add p exclude none none else base
  | none => base

def PatternItem.replacable (it : PatternItem) : Bool := it.subst.length > 0

def PatternItem.replacable_only (it : PatternItem) : Bool :=
  it.subst.length > 0 && it.incl.length = 0 && it.excl.length = 0

/-- PatternItem.match(patterns): value may be a comma-joined candidate list,
each candidate optionally '!'-prefixed for opposite polarity. -/
def matchCands (incl excl : List PyStr) : List PyStr → Bool
  | [] => true
  | p :: rest =>
    let opposite := startsWithCh '!' p
    let p := if opposite then p.drop 1 else p
    if incl.any (fun i => reSearch i p) then !opposite
    else if excl.any (fun e => reSearch e p) then opposite
    else if incl.length > 0 then opposite
    else if excl.length > 0 then !opposite
    else matchCands incl excl rest

def PatternItem.matches (it : PatternItem) (patterns : PyStr) : Bool :=
  matchCands it.incl it.excl (splitChar ',' patterns)

/-- PatternItem.replace: apply every substitution in order; self.cont is set
to the cont flag of each applied triple (so, finally, of the last one).
CPython raises TypeError when a triple's pattern slot is None (re.sub(None,
...)); that path is modelled by none. -/
def replaceSubsts : List PatternReplaceItem → PyStr → Bool → Option (PyStr × Bool)
  | [], v, c => some (v, c)
  | rp :: rest, v, _ =>
    match rp.pattern with
    | none => none
    | some p => replaceSubsts rest (reSub p rp.subst v) rp.cont

def PatternItem.replace (it : PatternItem) (value : PyStr) : Option (PyStr × Bool) :=
  replaceSubsts it.subst value it.cont

/-- The substitution part of PatternItem.__str__: delimiter '=' when chained,
'~' otherwise. -/
def renderSubst (rp : PatternReplaceItem) : PyStr :=
  let d := if rp.cont then '=' else '~'
  d :: (rp.pattern.getD []) ++ d :: rp.subst ++ [d]

/-- The comma-joined pattern list of PatternItem.__str__. -/
def patternsStr (it : PatternItem) : PyStr :=
  joinChar ',' (it.incl ++ it.excl.map (fun e => '!' :: e) ++ it.subst.map renderSubst)

/-- PatternItem.__str__: category/name prefixes (when truthy) followed by the
joined patterns. -/
def PatternItem.str (it : PatternItem) : PyStr :=
  (match it.category with
   | some c => if c ≠ [] then c ++ [':'] else []
   | none => []) ++
  (match it.name with
   | some n => if n ≠ [] then n ++ ['@'] else []
   | none => []) ++ patternsStr it

/-! ### PatternFile (src/topics/pattern.py lines 162-277)

The XML document produced by xml.dom.minidom.parse is modelled as a node
tree; the file-reading/XML-parsing step itself is the input boundary: a
parse failure (OSError/ExpatError) is the none input of loadParsed. -/

inductive XmlNode where
  | mk (name : PyStr) (attrs : List (PyStr × PyStr)) (children : List XmlNode)

def XmlNode.name : XmlNode → PyStr
  | .mk n _ _ => n

def XmlNode.attrs : XmlNode → List (PyStr × PyStr)
  | .mk _ a _ => a

def XmlNode.children : XmlNode → List XmlNode
  | .mk _ _ c => c

/-- _attr(node, attribute, default): minidom's getAttribute returns '' for a
missing attribute, and the helper replaces any falsy value by the default. -/
def xmlAttr (node : XmlNode) (attrName : PyStr) (default : Option PyStr) : Option PyStr :=
  let v := (alGet attrName node.attrs).getD []
  if v = [] then default else some v

/-- The group defaults carried by a patterns node (the _XmlPattern tuple as
built in parse_patterns: its cont slot is still a raw string there). -/
structure XmlParent where
  name : Option PyStr
  category : Option PyStr
  cont : Option PyStr

/-- _ensure_bool inside parse_pattern. -/
def ensureBool (value : Option PyStr) : Option Bool :=
  match value with
  | none => none
  | some v =>
    let v := lowerStr v
    if v = pys "true" ∨ v = pys "yes" then some true
    else if v = pys "false" ∨ v = pys "no" then some false
    else none

def leafNames : List PyStr :=
  [pys "pattern", pys "exclude-pattern", pys "rp-pattern", pys "replace-pattern"]

/-- PatternFile.parse_pattern. -/
def parse_pattern (node : XmlNode) (parent : Option XmlParent)
    (exclude : Bool) (replacement : Bool) : Option PatternItem :=
  if ¬ leafNames.contains node.name then none
  else
    let pName := xmlAttr node (pys "name") (parent.bind (·.name))
    let pCategory := xmlAttr node (pys "category") (parent.bind (·.category))
    let pValue := match xmlAttr node (pys "value") none with
      | some v => some v
      | none => xmlAttr node (pys "name") none
    let pReplacement :=
      if node.name ≠ pys "exclude-pattern" ∨ replacement
      then xmlAttr node (pys "replace") none else none
    let pCont := ensureBool (xmlAttr node (pys "continue") (parent.bind (·.cont)))
    if pReplacement.isSome || (match pValue with | some v => is_replace_str v | none => false) then
      let pi := mkPatternItem pCategory none false pName
      match pReplacement with
      | some r =>
        some (pi.add [] false (some ⟨pValue, r, pCont = some true⟩) none)
      | none =>
        -- pi.add(p.value, cont=p.cont); p.value is non-None here because the
        -- is_replace_str disjunct guarded this branch
        some (pi.add (pValue.getD []) false none pCont)
    else
      some (mkPatternItem pCategory pValue
        (exclude || node.name = pys "exclude-pattern") pName)

def groupNames : List PyStr :=
  [pys "patterns", pys "exclude-patterns", pys "rp-patterns", pys "replace-patterns"]

/-- PatternFile.parse_patterns: an item is kept only when truthy
(len(pi) > 0). -/
def parse_patterns (node : XmlNode) : List PatternItem :=
  if groupNames.contains node.name then
    let parent : XmlParent :=
      ⟨xmlAttr node (pys "name") none, xmlAttr node (pys "category") none,
       xmlAttr node (pys "continue") (some (pys "false"))⟩
    node.children.foldr
      (fun child acc =>
        match parse_pattern child (some parent)
            (node.name = pys "exclude-patterns")
            (node.name = pys "rp-patterns" ∨ node.name = pys "replace-patterns") with
        | some pi => if itemLen pi > 0 then pi :: acc else acc
        | none => acc) []
  else []

def loadGroupNames : List PyStr :=
  [pys "patterns", pys "exclude-patterns", pys "replace-patterns"]

/-- PatternFile.load after the minidom parse: the none input is the
OSError/ExpatError path and an empty child list is the 'manifest has no
root' path; both log and bare-return, i.e. produce None, not {}. -/
def PatternFile.loadParsed (root : Option (List XmlNode)) :
    Option (List (Option PyStr × List PatternItem)) :=
  match root with
  | none => none
  | some nodes =>
    match nodes with
    | [] => none
    | _ :: _ =>
      some (nodes.foldl
        (fun patterns node =>
          if loadGroupNames.contains node.name then
            (parse_patterns node).foldl
              (fun patterns pi =>
                if alContains pi.category patterns then
                  alUpdate pi.category (fun l => l ++ [pi]) patterns
                else alSet pi.category [pi] patterns) patterns
          else patterns) [])

/-! ### Pattern, the rule store (src/topics/pattern.py lines 280-431) -/

structure Pattern where
  orders : List (Option PyStr × List (Option PyStr))
  categories : List (Option PyStr × List (Option PyStr × PatternItem))
deriving DecidableEq

def Pattern.empty : Pattern := ⟨[], []⟩

/-- The `pattern is not None and name and re.search(pattern, name)` test of
the ordered-name scan. -/
def orderHit (q : Option PyStr) (name : Option PyStr) : Bool :=
  match q, name with
  | some pat, some nm => nm ≠ [] && reSearch pat nm
  | _, _ => false

def ensureKeyScan (name : Option PyStr) : List (Option PyStr) → Option (Option PyStr)
  | [] => none
  | q :: rest => if orderHit q name then some q else ensureKeyScan name rest

/-- The key at which Pattern._ensure_item resolves: the exact key when
present, else the first regex-matching recorded name, else (non-strict) the
None default key when present. -/
def Pattern.ensureKey (pt : Pattern) (category : PyStr) (name : Option PyStr)
    (strict : Bool) : Option (Option PyStr) :=
  let category := ensureCategory category
  match alGet (some category) pt.categories with
  | none => none
  | some items =>
    if alContains name items then some name
    else
      match ensureKeyScan name ((alGet (some category) pt.orders).getD []) with
      | some q => some q
      | none => if strict then none else if alContains none items then some none else none

/-- Pattern._ensure_item.  (CPython indexes items[pattern] directly in the
scan case and would raise KeyError if orders and categories ever got out of
step; Pattern.add keeps them in step.) -/
def Pattern.ensureItem (pt : Pattern) (category : PyStr) (name : Option PyStr)
    (strict : Bool) : Option PatternItem :=
  match pt.ensureKey category name strict with
  | some k => alGet k ((alGet (some (ensureCategory category)) pt.categories).getD [])
  | none => none

/-- The else-branch of Pattern.add for one CATEGORY:[NAME@]PATTERNS string:
record the name in the category's order and create a fresh item. -/
def Pattern.addNewEntry (pt : Pattern) (category : PyStr) (name : Option PyStr)
    (value : PyStr) (exclude : Bool) : Pattern :=
  ⟨alUpdate (some category) (fun l => l ++ [name]) pt.orders,
   alUpdate (some category)
     (fun items => alSet name (mkPatternItem (some category) (some value) exclude name) items)
     pt.categories⟩

/-- The resolution-and-insert body of Pattern.add once the category bucket
exists: resolve with strict=True (which canonicalizes the category a second
time, as CPython does); a truthy resolved item is mutated in place by
item.add(value, exclude), anything else records a fresh entry. -/
def Pattern.addResolve (pt1 : Pattern) (category : PyStr) (name : Option PyStr)
    (value : PyStr) (exclude : Bool) : Pattern :=
  let cc2 := ensureCategory category
  match pt1.ensureKey category name true with
  | some k =>
    let items2 := (alGet (some cc2) pt1.categories).getD []
    match alGet k items2 with
    | some it =>
      if itemLen it > 0 then
        -- item.add(value, exclude) mutates the resolved item in place
        ⟨pt1.orders,
         alSet (some cc2) (alSet k (it.add value exclude none none) items2) pt1.categories⟩
      else pt1.addNewEntry category name value exclude
    | none => pt1.addNewEntry category name value exclude
  | none => pt1.addNewEntry category name value exclude

/-- The body of Pattern.add for one already-split CATEGORY / NAME / PATTERNS
triple: canonicalize the category, make sure its bucket exists, then resolve
and insert. -/
def Pattern.addParsed (pt : Pattern) (category0 : PyStr) (name : Option PyStr)
    (value : PyStr) (exclude : Bool) : Pattern :=
  let category := ensureCategory category0
  let pt1 : Pattern :=
    if alContains (some category) pt.categories then pt
    else ⟨alSet (some category) [] pt.orders, alSet (some category) [] pt.categories⟩
  pt1.addResolve category name value exclude

/-- Pattern.add for a single string.  Strings without a category delimiter
after position 0 are logged and ignored. -/
def Pattern.addOne (pt : Pattern) (pattern : PyStr) (exclude : Bool) : Pattern :=
  if findGtZero ':' pattern then
    let cv := splitOnce ':' pattern
    let nv := if findGtZero '@' cv.2
      then (some (splitOnce '@' cv.2).1, (splitOnce '@' cv.2).2)
      else (none, cv.2)
    pt.addParsed cv.1 nv.1 nv.2 exclude
  else pt

def Pattern.addList (pt : Pattern) (patterns : List PyStr) (exclude : Bool) : Pattern :=
  patterns.foldl (fun pt p => pt.addOne p exclude) pt

/-- Pattern.add for a mapping of category to item list (the dict branch used
by load); keys are taken as given, without canonicalization. -/
def Pattern.addDict (pt : Pattern) (m : List (Option PyStr × List PatternItem)) : Pattern :=
  m.foldl
    (fun pt cm =>
      let pt1 : Pattern :=
        if alContains cm.1 pt.categories then pt
        else ⟨alSet cm.1 [] pt.orders, alSet cm.1 [] pt.categories⟩
      cm.2.foldl
        (fun (pt : Pattern) it =>
          ⟨alUpdate cm.1 (fun l => l ++ [it.name]) pt.orders,
           alUpdate cm.1 (fun items => alSet it.name it items) pt.categories⟩) pt1)
    pt

/-- Pattern.load given the parse outcome of the file: Pattern.add silently
ignores a non-str, non-list, non-dict argument, in particular the None that
PatternFile.load yields on failure. -/
def Pattern.loadParsed (pt : Pattern) (root : Option (List XmlNode)) : Pattern :=
  match PatternFile.loadParsed root with
  | some m => pt.addDict m
  | none => pt

/-- One pass of the category loop of Pattern.match, accumulating
(ret, existed); an item takes part only when truthy (len > 0) and not
rewrite-only. -/
def Pattern.matchGo (pt : Pattern) (value : PyStr) (nm : Option PyStr) :
    List PyStr → Bool → Bool → Bool × Bool
  | [], ret, existed => (ret, existed)
  | c :: rest, ret, existed =>
    match pt.ensureItem c nm false with
    | some item =>
      if itemLen item > 0 && !item.replacable_only then
        pt.matchGo value nm rest (ret || item.matches value) true
      else pt.matchGo value nm rest ret existed
    | none => pt.matchGo value nm rest ret existed

/-- Pattern.match(categories, value, name): when nothing resolved and no
name was supplied, retry with the value itself as the lookup name; when
still nothing resolved, default to true. -/
def Pattern.matches (pt : Pattern) (categories value : PyStr) (name : Option PyStr) : Bool :=
  let cats := splitChar ',' categories
  let re1 := pt.matchGo value name cats false false
  let re2 :=
    if !re1.2 ∧ name = none then pt.matchGo value (some value) cats re1.1 re1.2
    else re1
  if re2.2 then re2.1 else true

/-- Outcome of the ordered-name scan inside one category of Pattern.replace:
an early return, a CPython exception, or fall-through with the current value
and replaced flag. -/
inductive RepStep where
  | ret (v : PyStr)
  | err
  | next (v : PyStr) (replaced : Bool)
deriving DecidableEq

/-- The inner `for pattern in self.orders[category]` loop of
Pattern.replace. -/
def Pattern.replaceScan (items : List (Option PyStr × PatternItem))
    (name : Option PyStr) : List (Option PyStr) → PyStr → Bool → RepStep
  | [], v, r => .next v r
  | q :: qs, v, r =>
    if orderHit q name then
      match alGet q items with
      | none => .err
      | some item =>
        if item.replacable then
          match item.replace v with
          | none => .err
          | some vc =>
            let r' := r || decide (vc.1 ≠ v)
            if r' && !vc.2 then .ret vc.1
            else Pattern.replaceScan items name qs vc.1 r'
        else Pattern.replaceScan items name qs v r
    else Pattern.replaceScan items name qs v r

/-- The per-category body of Pattern.replace after the ordered scan: when
nothing has replaced yet, fall back to ordinary resolution and return its
substitution result directly. -/
def Pattern.replaceFallback (pt : Pattern) (cc : PyStr) (name : Option PyStr)
    (v : PyStr) : Option (Option PyStr) :=
  match pt.ensureItem cc name false with
  | some item =>
    if itemLen item > 0 && item.replacable then some ((item.replace v).map Prod.fst)
    else none
  | none => none

def Pattern.replaceGo (pt : Pattern) (name : Option PyStr) :
    List PyStr → PyStr → Bool → Option PyStr
  | [], v, _ => some v
  | c :: rest, v, r =>
    let cc := ensureCategory c
    match alGet (some cc) pt.categories with
    | some items =>
      match Pattern.replaceScan items name ((alGet (some cc) pt.orders).getD []) v r with
      | .ret w => some w
      | .err => none
      | .next v' r' =>
        if !r' then
          match pt.replaceFallback cc name v' with
          | some res => res
          | none => pt.replaceGo name rest v' r'
        else pt.replaceGo name rest v' r'
    | none =>
      if !r then
        match pt.replaceFallback cc name v with
        | some res => res
        | none => pt.replaceGo name rest v r
      else pt.replaceGo name rest v r

/-- Pattern.replace(categories, value, name); none is the CPython exception
path (a substitution triple whose pattern slot is None). -/
def Pattern.replace (pt : Pattern) (categories value : PyStr) (name : Option PyStr) :
    Option PyStr :=
  pt.replaceGo name (splitChar ',' categories) value false

/-- The orders/categories lock-step invariant: the two maps have the same
category keys, every recorded name is a key of the category's item map and
every key is recorded. -/
def Pattern.inSync (pt : Pattern) : Bool :=
  pt.orders.all (fun co =>
    match alGet co.1 pt.categories with
    | some items => co.2.all (fun n => alContains n items)
    | none => false) &&
  pt.categories.all (fun ci =>
    match alGet ci.1 pt.orders with
    | some ord => ci.2.all (fun kv => ord.contains kv.1)
    | none => false)

/-! ### Basic association-list lemmas -/

theorem alGet_some_mem {κ β : Type} [DecidableEq κ] (k : κ) (l : List (κ × β)) (v : β)
    (h : alGet k l = some v) : (k, v) ∈ l := by
  induction l with
  | nil => simp [alGet] at h
  | cons kv rest ih =>
    by_cases hk : kv.1 = k
    · simp only [alGet, if_pos hk, Option.some.injEq] at h
      have hkv : kv = (k, v) := by
        cases kv
        simp_all
      rw [← hkv]
      exact List.mem_cons_self _ _
    · simp only [alGet, if_neg hk] at h
      exact List.mem_cons_of_mem _ (ih h)

theorem alGet_value_mem {κ β : Type} [DecidableEq κ] (k : κ) (l : List (κ × β)) (v : β)
    (h : alGet k l = some v) : v ∈ l.map Prod.snd :=
  List.mem_map_of_mem Prod.snd (alGet_some_mem k l v h)

theorem mem_alSet {κ β : Type} [DecidableEq κ] (k : κ) (v : β) (l : List (κ × β))
    (kv : κ × β) (h : kv ∈ alSet k v l) : kv = (k, v) ∨ kv ∈ l := by
  induction l with
  | nil =>
    simp only [alSet] at h
    left
    exact List.mem_singleton.mp h
  | cons hd rest ih =>
    simp only [alSet] at h
    by_cases hk : hd.1 = k
    · rw [if_pos hk] at h
      rcases List.mem_cons.mp h with h | h
      · left; exact h
      · right; exact List.mem_cons_of_mem _ h
    · rw [if_neg hk] at h
      rcases List.mem_cons.mp h with h | h
      · right; rw [h]; exact List.mem_cons_self _ _
      · rcases ih h with h' | h'
        · left; exact h'
        · right; exact List.mem_cons_of_mem _ h'

theorem mem_alUpdate {κ β : Type} [DecidableEq κ] (k : κ) (f : β → β) (l : List (κ × β))
    (kv : κ × β) (h : kv ∈ alUpdate k f l) :
    kv ∈ l ∨ ∃ w, (k, w) ∈ l ∧ kv = (k, f w) := by
  induction l with
  | nil => simp [alUpdate] at h
  | cons hd rest ih =>
    simp only [alUpdate] at h
    by_cases hk : hd.1 = k
    · rw [if_pos hk] at h
      rcases List.mem_cons.mp h with h | h
      · right
        refine ⟨hd.2, ?_, ?_⟩
        · rw [← hk]
          exact List.mem_cons_self _ _
        · rw [h, hk]
      · left; exact List.mem_cons_of_mem _ h
    · rw [if_neg hk] at h
      rcases List.mem_cons.mp h with h | h
      · left; rw [h]; exact List.mem_cons_self _ _
      · rcases ih h with h' | ⟨w, hw, hkv⟩
        · left; exact List.mem_cons_of_mem _ h'
        · right; exact ⟨w, List.mem_cons_of_mem _ hw, hkv⟩

theorem alGet_alSet_self {κ β : Type} [DecidableEq κ] (k : κ) (v : β) (l : List (κ × β)) :
    alGet k (alSet k v l) = some v := by
  induction l with
  | nil => simp [alSet, alGet]
  | cons hd rest ih =>
    by_cases hk : hd.1 = k
    · simp [alSet, hk, alGet]
    · simp [alSet, hk, alGet, ih]

theorem alGet_alSet_other {κ β : Type} [DecidableEq κ] (k k' : κ) (v : β)
    (l : List (κ × β)) (h : k' ≠ k) : alGet k' (alSet k v l) = alGet k' l := by
  have h1 : ¬ k = k' := fun hh => h hh.symm
  induction l with
  | nil => simp [alSet, alGet, h1]
  | cons hd rest ih =>
    by_cases hk : hd.1 = k
    · have h2 : ¬ hd.1 = k' := by rw [hk]; exact h1
      simp [alSet, hk, alGet, h1, h2]
    · simp [alSet, hk, alGet, ih]

theorem alGet_alUpdate_self {κ β : Type} [DecidableEq κ] (k : κ) (f : β → β)
    (l : List (κ × β)) : alGet k (alUpdate k f l) = (alGet k l).map f := by
  induction l with
  | nil => simp [alUpdate, alGet]
  | cons hd rest ih =>
    by_cases hk : hd.1 = k
    · simp [alUpdate, hk, alGet]
    · simp [alUpdate, hk, alGet, ih]

theorem alGet_alUpdate_other {κ β : Type} [DecidableEq κ] (k k' : κ) (f : β → β)
    (l : List (κ × β)) (h : k' ≠ k) : alGet k' (alUpdate k f l) = alGet k' l := by
  induction l with
  | nil => simp [alUpdate]
  | cons hd rest ih =>
    by_cases hk : hd.1 = k
    · have h1 : ¬ k = k' := fun hh => h hh.symm
      have h2 : ¬ hd.1 = k' := by rw [hk]; exact h1
      simp [alUpdate, hk, alGet, h1, h2]
    · simp [alUpdate, hk, alGet, ih]

theorem alContains_alSet {κ β : Type} [DecidableEq κ] (k n : κ) (v : β)
    (l : List (κ × β)) (h : alContains n l = true) : alContains n (alSet k v l) = true := by
  by_cases hk : n = k
  · subst hk
    simp [alContains, alGet_alSet_self]
  · simp only [alContains, alGet_alSet_other _ _ _ _ hk]
    exact h

theorem alContains_alSet_self {κ β : Type} [DecidableEq κ] (k : κ) (v : β)
    (l : List (κ × β)) : alContains k (alSet k v l) = true := by
  simp [alContains, alGet_alSet_self]

/-! ### Resolution lemmas -/

theorem ensureKeyScan_append_hit (name : Option PyStr) (l1 l2 : List (Option PyStr))
    (q : Option PyStr) (hmiss : ∀ x ∈ l1, orderHit x name = false)
    (hq : orderHit q name = true) :
    ensureKeyScan name (l1 ++ q :: l2) = some q := by
  induction l1 with
  | nil => simp [ensureKeyScan, hq]
  | cons x xs ih =>
    have hx := hmiss x (List.mem_cons_self _ _)
    simp only [List.cons_append, ensureKeyScan, hx, Bool.false_eq_true, if_false]
    exact ih (fun y hy => hmiss y (List.mem_cons_of_mem _ hy))

theorem ensureItem_value_mem (pt : Pattern) (c : PyStr) (n : Option PyStr) (s : Bool)
    (it : PatternItem) (h : pt.ensureItem c n s = some it) :
    ∃ items, alGet (some (ensureCategory c)) pt.categories = some items ∧
      it ∈ items.map Prod.snd := by
  unfold Pattern.ensureItem at h
  cases hk : pt.ensureKey c n s with
  | none => rw [hk] at h; simp at h
  | some k =>
    rw [hk] at h
    cases hc : alGet (some (ensureCategory c)) pt.categories with
    | none => rw [hc] at h; simp [alGet] at h
    | some items =>
      rw [hc] at h
      simp only [Option.getD_some] at h
      exact ⟨items, rfl, alGet_value_mem _ _ _ h⟩

/-! ### Claims C1-C5 -/

/-- The end-to-end scenario store of C1: an empty store after
add("project:libfoo@.*") and add("project:~libfoo~lib-foo~"). -/
def scenarioStore : Pattern :=
  (Pattern.empty.addOne (pys "project:libfoo@.*") false).addOne
    (pys "project:~libfoo~lib-foo~") false

/-- C1, counterexample: with name="libfoo", replace resolves the exact-name
item "libfoo" (an include-only item, no substitutions) and returns the value
unchanged, not "lib-foo" as the claim expects. -/
theorem c1_scenario_counterexample :
    scenarioStore.replace (pys "project") (pys "libfoo") (some (pys "libfoo")) ≠
      some (pys "lib-foo") := by decide

/-- C1, amended: after the two add calls, replace("project", "libfoo",
name="libfoo") returns "libfoo" unchanged (the exact-name item wins and has
no substitutions; the anonymous substitution item under the None key is not
consulted), match("project", "libfoo", name="libfoo") returns true, and
match("project", "other", name="other") returns true. -/
theorem c1_scenario_amended :
    scenarioStore.replace (pys "project") (pys "libfoo") (some (pys "libfoo")) =
      some (pys "libfoo") ∧
    scenarioStore.matches (pys "project") (pys "libfoo") (some (pys "libfoo")) = true ∧
    scenarioStore.matches (pys "project") (pys "other") (some (pys "other")) = true := by
  refine ⟨by decide, by decide, by decide⟩

/-- C3: exact-name resolution beats regex-name resolution: whenever the
lookup name is itself a key of the category's item map, _ensure_item returns
that entry, whatever regex-named items the category also holds. -/
theorem c3_exact_name_wins (pt : Pattern) (category name : PyStr)
    (items : List (Option PyStr × PatternItem)) (it : PatternItem) (strict : Bool)
    (hc : alGet (some (ensureCategory category)) pt.categories = some items)
    (hx : alGet (some name) items = some it) :
    pt.ensureItem category (some name) strict = some it := by
  have hcont : alContains (some name) items = true := by simp [alContains, hx]
  simp [Pattern.ensureItem, Pattern.ensureKey, hc, hcont, hx]

/-- C3, witness: a store with an exact item under "foo" and a regex item
under ".*" (which also matches "foo") still resolves "foo" to the exact
item. -/
theorem c3_exact_name_wins_witness :
    (((Pattern.empty.addOne (pys "c:foo@x") false).addOne (pys "c:.*@r") false).ensureItem
      (pys "c") (some (pys "foo")) false) =
    some ⟨some (pys "c"), some (pys "foo"), false, [pys "x"], [], []⟩ :=
  c3_exact_name_wins
    ((Pattern.empty.addOne (pys "c:foo@x") false).addOne (pys "c:.*@r") false)
    (pys "c") (pys "foo")
    [(some (pys "foo"), ⟨some (pys "c"), some (pys "foo"), false, [pys "x"], [], []⟩),
     (some (pys ".*"), ⟨some (pys "c"), some (pys ".*"), false, [pys "r"], [], []⟩)]
    _ false (by decide) (by decide)

/-- C4: when the lookup name has no exact entry, the recorded insertion
order is scanned front to back and the first regex-matching recorded name
wins: if every earlier recorded name misses and (some p) hits, resolution
returns the item stored under p. -/
theorem c4_first_inserted_regex_wins (pt : Pattern) (category : PyStr)
    (name : Option PyStr) (items : List (Option PyStr × PatternItem))
    (ord l1 l2 : List (Option PyStr)) (p : PyStr) (it : PatternItem) (strict : Bool)
    (hc : alGet (some (ensureCategory category)) pt.categories = some items)
    (ho : alGet (some (ensureCategory category)) pt.orders = some ord)
    (hne : alGet name items = none)
    (hdec : ord = l1 ++ some p :: l2)
    (hmiss : ∀ x ∈ l1, orderHit x name = false)
    (hhit : orderHit (some p) name = true)
    (hp : alGet (some p) items = some it) :
    pt.ensureItem category name strict = some it := by
  have hcont : alContains name items = false := by simp [alContains, hne]
  have hscan : ensureKeyScan name
      ((alGet (some (ensureCategory category)) pt.orders).getD []) = some (some p) := by
    rw [ho, Option.getD_some, hdec]
    exact ensureKeyScan_append_hit _ _ _ _ hmiss hhit
  simp [Pattern.ensureItem, Pattern.ensureKey, hc, hcont, hscan, hp]

/-- C4, witness: two regex-named items "f.*" (first) and ".*" (second) both
match "foo"; resolution returns the first-inserted one. -/
theorem c4_first_inserted_regex_wins_witness :
    (((Pattern.empty.addOne (pys "c:f.*@a") false).addOne (pys "c:.*@b") false).ensureItem
      (pys "c") (some (pys "foo")) false) =
    some ⟨some (pys "c"), some (pys "f.*"), false, [pys "a"], [], []⟩ := by
  apply c4_first_inserted_regex_wins
    ((Pattern.empty.addOne (pys "c:f.*@a") false).addOne (pys "c:.*@b") false)
    (pys "c") (some (pys "foo"))
    [(some (pys "f.*"), ⟨some (pys "c"), some (pys "f.*"), false, [pys "a"], [], []⟩),
     (some (pys ".*"), ⟨some (pys "c"), some (pys ".*"), false, [pys "b"], [], []⟩)]
    [some (pys "f.*"), some (pys ".*")] [] [some (pys ".*")] (pys "f.*") _ false
    (by decide) (by decide) (by decide) (by decide)
    (by intro x hx; simp at hx) (by decide) (by decide)

theorem matchGo_skip (pt : Pattern) (value : PyStr) (nm : Option PyStr) (c : PyStr)
    (r e : Bool)
    (h : ∀ it, pt.ensureItem c nm false = some it → it.replacable_only = true) :
    pt.matchGo value nm [c] r e = (r, e) := by
  cases hi : pt.ensureItem c nm false with
  | none => simp [Pattern.matchGo, hi]
  | some it =>
    have h2 := h it hi
    simp [Pattern.matchGo, hi, h2]

/-- C5: a category whose items are all rewrite-only (non-empty substitution
list, empty include/exclude) never influences match: for every value and
name, match over that single category returns the permissive default true,
exactly as when the category holds no items at all. -/
theorem c5_rewrite_only_skipped (pt : Pattern) (c value : PyStr) (name : Option PyStr)
    (hsplit : splitChar ',' c = [c])
    (hall : ∀ items, alGet (some (ensureCategory c)) pt.categories = some items →
      ∀ it ∈ items.map Prod.snd, it.replacable_only = true) :
    pt.matches c value name = true := by
  have hskip : ∀ (nm : Option PyStr) (r e : Bool), pt.matchGo value nm [c] r e = (r, e) := by
    intro nm r e
    apply matchGo_skip
    intro it hi
    obtain ⟨items, hitems, hmem⟩ := ensureItem_value_mem pt c nm false it hi
    exact hall items hitems it hmem
  unfold Pattern.matches
  rw [hsplit]
  cases name with
  | none => simp [hskip]
  | some nm => simp [hskip]

/-- C5, witness: a category holding only the rewrite-only item parsed from
"c:~a~b~" lets every value pass. -/
theorem c5_rewrite_only_skipped_witness :
    (Pattern.empty.addOne (pys "c:~a~b~") false).matches (pys "c") (pys "a") none = true := by
  apply c5_rewrite_only_skipped
  · decide
  · intro items hitems it hmem
    have h2 : alGet (some (ensureCategory (pys "c")))
        (Pattern.empty.addOne (pys "c:~a~b~") false).categories =
        some [(none, (⟨some (pys "c"), none, false, [], [],
          [⟨some (pys "a"), pys "b", false⟩]⟩ : PatternItem))] := by decide
    rw [hitems] at h2
    injection h2 with h3
    subst h3
    simp only [List.map, List.mem_singleton] at hmem
    subst hmem
    decide

/-! ### Claim C2: chained vs non-chained substitutions across categories -/

/-- Non-chained demo: category a rewrites old→new with ~, category b would
rewrite new→newer. -/
def demoNonChain : Pattern :=
  (Pattern.empty.addOne (pys "a:n@~old~new~") false).addOne (pys "b:n@~new~newer~") false

/-- Chained demo: category a rewrites old→new with =, category b rewrites
new→newer. -/
def demoChain : Pattern :=
  (Pattern.empty.addOne (pys "a:n@=old=new=") false).addOne (pys "b:n@~new~newer~") false

/-- C2: (1) when the ordered-name scan of an earlier category ends in an
early return, replace yields that value at once and the remaining categories
are never consulted; (2) when the scan falls through with the replaced flag
set (a chained substitution fired), the remaining categories are still
processed on the rewritten value; (3) a named substitution item that fires
(changes the value) with chain flag false makes the scan return that value
immediately; (4) one that fires with chain flag true lets the scan continue
with the rewritten value; (5)/(6) concretely, ~old~new~ in category a stops
category b from rewriting (result "new") while =old=new= lets category b
rewrite as well (result "newer"). -/
theorem c2_chain_stops_or_continues :
    (∀ (pt : Pattern) (c : PyStr) (rest : List PyStr) (name : Option PyStr)
       (v w : PyStr) (r : Bool),
       alContains (some (ensureCategory c)) pt.categories = true →
       Pattern.replaceScan ((alGet (some (ensureCategory c)) pt.categories).getD [])
         name ((alGet (some (ensureCategory c)) pt.orders).getD []) v r = .ret w →
       pt.replaceGo name (c :: rest) v r = some w)
  ∧ (∀ (pt : Pattern) (c : PyStr) (rest : List PyStr) (name : Option PyStr)
       (v v' : PyStr) (r : Bool),
       alContains (some (ensureCategory c)) pt.categories = true →
       Pattern.replaceScan ((alGet (some (ensureCategory c)) pt.categories).getD [])
         name ((alGet (some (ensureCategory c)) pt.orders).getD []) v r = .next v' true →
       pt.replaceGo name (c :: rest) v r = pt.replaceGo name rest v' true)
  ∧ (∀ (items : List (Option PyStr × PatternItem)) (name : Option PyStr)
       (qs : List (Option PyStr)) (q : Option PyStr) (v v2 : PyStr) (r : Bool)
       (it : PatternItem),
       orderHit q name = true → alGet q items = some it → it.replacable = true →
       it.replace v = some (v2, false) → v2 ≠ v →
       Pattern.replaceScan items name (q :: qs) v r = .ret v2)
  ∧ (∀ (items : List (Option PyStr × PatternItem)) (name : Option PyStr)
       (qs : List (Option PyStr)) (q : Option PyStr) (v v2 : PyStr) (r : Bool)
       (it : PatternItem),
       orderHit q name = true → alGet q items = some it → it.replacable = true →
       it.replace v = some (v2, true) → v2 ≠ v →
       Pattern.replaceScan items name (q :: qs) v r =
         Pattern.replaceScan items name qs v2 true)
  ∧ demoNonChain.replace (pys "a,b") (pys "old") (some (pys "n")) = some (pys "new")
  ∧ demoChain.replace (pys "a,b") (pys "old") (some (pys "n")) = some (pys "newer") := by
  refine ⟨?_, ?_, ?_, ?_, by decide, by decide⟩
  · intro pt c rest name v w r hcont hscan
    simp only [alContains, Option.isSome_iff_exists] at hcont
    obtain ⟨items, hitems⟩ := hcont
    rw [hitems, Option.getD_some] at hscan
    simp only [Pattern.replaceGo, hitems, hscan]
  · intro pt c rest name v v' r hcont hscan
    simp only [alContains, Option.isSome_iff_exists] at hcont
    obtain ⟨items, hitems⟩ := hcont
    rw [hitems, Option.getD_some] at hscan
    simp only [Pattern.replaceGo, hitems, hscan, Bool.not_true, Bool.false_eq_true, if_false]
  · intro items name qs q v v2 r it hq hget hrep hrepl hne
    simp [Pattern.replaceScan, hq, hget, hrep, hrepl, hne]
  · intro items name qs q v v2 r it hq hget hrep hrepl hne
    simp [Pattern.replaceScan, hq, hget, hrep, hrepl, hne]

/-- C2, witness: the first conjunct applied to the non-chained demo store:
category a's scan returns early with "new" and category b is skipped. -/
theorem c2_chain_stops_or_continues_witness :
    demoNonChain.replaceGo (some (pys "n")) [pys "a", pys "b"] (pys "old") false =
      some (pys "new") :=
  c2_chain_stops_or_continues.1 demoNonChain (pys "a") [pys "b"] (some (pys "n"))
    (pys "old") (pys "new") false (by decide) (by decide)

/-! ### Claim C9: the orders/categories lock-step invariant -/

theorem mem_alContains {κ β : Type} [DecidableEq κ] (kv : κ × β) (l : List (κ × β))
    (h : kv ∈ l) : alContains kv.1 l = true := by
  induction l with
  | nil => simp at h
  | cons hd rest ih =>
    rcases List.mem_cons.mp h with h | h
    · subst h
      simp [alContains, alGet]
    · by_cases hk : hd.1 = kv.1
      · simp [alContains, alGet, hk]
      · simp only [alContains, alGet, hk, Bool.false_eq_true, if_false]
        exact ih h

theorem alContains_alUpdate {κ β : Type} [DecidableEq κ] (k n : κ) (f : β → β)
    (l : List (κ × β)) : alContains n (alUpdate k f l) = alContains n l := by
  by_cases hk : n = k
  · subst hk
    simp [alContains, alGet_alUpdate_self]
  · simp [alContains, alGet_alUpdate_other _ _ _ _ hk]

/-- The lock-step invariant in propositional form. -/
def InSyncP (pt : Pattern) : Prop :=
  (∀ co ∈ pt.orders, ∃ items, alGet co.1 pt.categories = some items ∧
    ∀ n ∈ co.2, alContains n items = true) ∧
  (∀ ci ∈ pt.categories, ∃ ord, alGet ci.1 pt.orders = some ord ∧
    ∀ kv ∈ ci.2, kv.1 ∈ ord)

theorem inSync_iff (pt : Pattern) : pt.inSync = true ↔ InSyncP pt := by
  simp only [Pattern.inSync, Bool.and_eq_true, List.all_eq_true]
  constructor
  · rintro ⟨h1, h2⟩
    constructor
    · intro co hco
      have hx := h1 co hco
      cases hi : alGet co.1 pt.categories with
      | none => simp [hi] at hx
      | some items =>
        rw [hi] at hx
        simp only [List.all_eq_true] at hx
        exact ⟨items, rfl, hx⟩
    · intro ci hci
      have hx := h2 ci hci
      cases ho : alGet ci.1 pt.orders with
      | none => simp [ho] at hx
      | some ord =>
        rw [ho] at hx
        simp only [List.all_eq_true] at hx
        exact ⟨ord, rfl, fun kv hkv => List.elem_iff.mp (hx kv hkv)⟩
  · rintro ⟨h1, h2⟩
    constructor
    · intro co hco
      obtain ⟨items, hi, hall⟩ := h1 co hco
      rw [hi]
      simp only [List.all_eq_true]
      exact hall
    · intro ci hci
      obtain ⟨ord, ho, hall⟩ := h2 ci hci
      rw [ho]
      simp only [List.all_eq_true]
      exact fun kv hkv => List.elem_iff.mpr (hall kv hkv)

theorem inSync_create (pt : Pattern) (K : Option PyStr)
    (h : InSyncP pt) (hnc : alContains K pt.categories = false) :
    InSyncP ⟨alSet K [] pt.orders, alSet K [] pt.categories⟩ := by
  obtain ⟨h1, h2⟩ := h
  constructor
  · intro co hco
    rcases mem_alSet _ _ _ _ hco with hco | hco
    · subst hco
      exact ⟨[], alGet_alSet_self _ _ _, by intro n hn; simp at hn⟩
    · obtain ⟨items, hi, hall⟩ := h1 co hco
      have hne : co.1 ≠ K := by
        intro hk
        rw [hk] at hi
        simp [alContains, hi] at hnc
      rw [← alGet_alSet_other K co.1 ([] : List (Option PyStr × PatternItem))
        pt.categories hne] at hi
      exact ⟨items, hi, hall⟩
  · intro ci hci
    rcases mem_alSet _ _ _ _ hci with hci | hci
    · subst hci
      exact ⟨[], alGet_alSet_self _ _ _, by intro kv hkv; simp at hkv⟩
    · obtain ⟨ord, ho, hall⟩ := h2 ci hci
      have hne : ci.1 ≠ K := by
        intro hk
        have := mem_alContains ci pt.categories hci
        rw [hk] at this
        rw [this] at hnc
        exact Bool.true_eq_false.mp hnc
      rw [← alGet_alSet_other K ci.1 ([] : List (Option PyStr)) pt.orders hne] at ho
      exact ⟨ord, ho, hall⟩

theorem inSync_mutate (pt : Pattern) (K : Option PyStr)
    (items : List (Option PyStr × PatternItem)) (k : Option PyStr) (v : PatternItem)
    (h : InSyncP pt) (hK : alGet K pt.categories = some items)
    (hk : alContains k items = true) :
    InSyncP ⟨pt.orders, alSet K (alSet k v items) pt.categories⟩ := by
  obtain ⟨h1, h2⟩ := h
  constructor
  · intro co hco
    obtain ⟨its, hi, hall⟩ := h1 co hco
    by_cases hne : co.1 = K
    · have hits : its = items := by
        rw [hne] at hi
        rw [hi] at hK
        exact Option.some.inj hK
      subst hits
      refine ⟨alSet k v its, ?_, ?_⟩
      · rw [hne]
        exact alGet_alSet_self _ _ _
      · intro n hn
        exact alContains_alSet _ _ _ _ (hall n hn)
    · rw [← alGet_alSet_other K co.1 (alSet k v items) pt.categories hne] at hi
      exact ⟨its, hi, hall⟩
  · intro ci hci
    rcases mem_alSet _ _ _ _ hci with hci | hci
    · obtain ⟨ord, ho, hall⟩ := h2 (K, items) (alGet_some_mem _ _ _ hK)
      subst hci
      refine ⟨ord, ho, ?_⟩
      intro kv hkv
      rcases mem_alSet _ _ _ _ hkv with hkv | hkv
      · subst hkv
        simp only [alContains, Option.isSome_iff_exists] at hk
        obtain ⟨w, hw⟩ := hk
        exact hall (k, w) (alGet_some_mem _ _ _ hw)
      · exact hall kv hkv
    · obtain ⟨ord, ho, hall⟩ := h2 ci hci
      exact ⟨ord, ho, hall⟩

theorem inSync_append (pt : Pattern) (K : Option PyStr) (n : Option PyStr)
    (v : PatternItem) (h : InSyncP pt) :
    InSyncP ⟨alUpdate K (fun l => l ++ [n]) pt.orders,
             alUpdate K (fun items => alSet n v items) pt.categories⟩ := by
  obtain ⟨h1, h2⟩ := h
  constructor
  · intro co hco
    rcases mem_alUpdate _ _ _ _ hco with hco | ⟨w, hw, hkv⟩
    · obtain ⟨items, hi, hall⟩ := h1 co hco
      by_cases hne : co.1 = K
      · refine ⟨alSet n v items, ?_, ?_⟩
        · rw [hne, alGet_alUpdate_self, ← hne, hi]
          rfl
        · intro m hm
          exact alContains_alSet _ _ _ _ (hall m hm)
      · rw [← alGet_alUpdate_other K co.1 _ pt.categories hne] at hi
        exact ⟨items, hi, hall⟩
    · obtain ⟨items, hi, hall⟩ := h1 (K, w) hw
      subst hkv
      refine ⟨alSet n v items, ?_, ?_⟩
      · rw [alGet_alUpdate_self, hi]
        rfl
      · intro m hm
        rcases List.mem_append.mp hm with hm | hm
        · exact alContains_alSet _ _ _ _ (hall m hm)
        · rw [List.mem_singleton.mp hm]
          exact alContains_alSet_self _ _ _
  · intro ci hci
    rcases mem_alUpdate _ _ _ _ hci with hci | ⟨w, hw, hkv⟩
    · obtain ⟨ord, ho, hall⟩ := h2 ci hci
      by_cases hne : ci.1 = K
      · refine ⟨ord ++ [n], ?_, ?_⟩
        · rw [hne, alGet_alUpdate_self, ← hne, ho]
          rfl
        · intro kv hkv
          exact List.mem_append_left _ (hall kv hkv)
      · rw [← alGet_alUpdate_other K ci.1 _ pt.orders hne] at ho
        exact ⟨ord, ho, hall⟩
    · obtain ⟨ord, ho, hall⟩ := h2 (K, w) hw
      subst hkv
      refine ⟨ord ++ [n], ?_, ?_⟩
      · rw [alGet_alUpdate_self, ho]
        rfl
      · intro kv hkv
        rcases mem_alSet _ _ _ _ hkv with hkv | hkv
        · subst hkv
          exact List.mem_append_right _ (List.mem_singleton_self _)
        · exact List.mem_append_left _ (hall kv hkv)

theorem inSync_addNewEntry (pt : Pattern) (category : PyStr) (name : Option PyStr)
    (value : PyStr) (exclude : Bool) (h : InSyncP pt) :
    InSyncP (pt.addNewEntry category name value exclude) :=
  inSync_append pt (some category) name
    (mkPatternItem (some category) (some value) exclude name) h

theorem inSync_addResolve (pt1 : Pattern) (category : PyStr) (name : Option PyStr)
    (value : PyStr) (exclude : Bool) (h : InSyncP pt1) :
    InSyncP (pt1.addResolve category name value exclude) := by
  simp only [Pattern.addResolve]
  split
  · split
    · split
      · rename_i x1 q hkeq x2 it hg hlen
        cases hcc : alGet (some (ensureCategory category)) pt1.categories with
        | none =>
          rw [hcc] at hg
          simp [alGet] at hg
        | some items2 =>
          rw [hcc] at hg
          simp only [Option.getD_some] at hg
          simp only [Option.getD_some]
          exact inSync_mutate pt1 _ items2 q (it.add value exclude none none) h hcc
            (by simp [alContains, hg])
      · exact inSync_addNewEntry _ _ _ _ _ h
    · exact inSync_addNewEntry _ _ _ _ _ h
  · exact inSync_addNewEntry _ _ _ _ _ h

theorem inSync_addParsed (pt : Pattern) (category0 : PyStr) (name : Option PyStr)
    (value : PyStr) (exclude : Bool) (h : InSyncP pt) :
    InSyncP (pt.addParsed category0 name value exclude) := by
  unfold Pattern.addParsed
  by_cases hc : alContains (some (ensureCategory category0)) pt.categories = true
  · simp only [hc, if_pos]
    exact inSync_addResolve _ _ _ _ _ h
  · simp only [hc, if_neg]
    exact inSync_addResolve _ _ _ _ _
      (inSync_create pt _ h (Bool.not_eq_true _ ▸ hc))

theorem inSync_addOne (pt : Pattern) (p : PyStr) (e : Bool) (h : InSyncP pt) :
    InSyncP (pt.addOne p e) := by
  unfold Pattern.addOne
  by_cases hf : findGtZero ':' p = true
  · simp only [hf, if_pos]
    exact inSync_addParsed _ _ _ _ _ h
  · simp only [hf, if_neg]
    exact h

theorem inSync_addList (pt : Pattern) (ps : List PyStr) (e : Bool) (h : InSyncP pt) :
    InSyncP (pt.addList ps e) := by
  induction ps generalizing pt with
  | nil => exact h
  | cons p rest ih =>
    exact ih _ (inSync_addOne pt p e h)

theorem inSync_addDict (pt : Pattern) (m : List (Option PyStr × List PatternItem))
    (h : InSyncP pt) : InSyncP (pt.addDict m) := by
  induction m generalizing pt with
  | nil => exact h
  | cons cm rest ih =>
    simp only [Pattern.addDict, List.foldl_cons]
    have hstep : ∀ (its : List PatternItem) (pt2 : Pattern), InSyncP pt2 →
        InSyncP (its.foldl (fun (pt : Pattern) it =>
          ⟨alUpdate cm.1 (fun l => l ++ [it.name]) pt.orders,
           alUpdate cm.1 (fun items => alSet it.name it items) pt.categories⟩) pt2) := by
      intro its
      induction its with
      | nil => intro pt2 h2; exact h2
      | cons it rest2 ih2 =>
        intro pt2 h2
        exact ih2 _ (inSync_append pt2 cm.1 it.name it h2)
    by_cases hc : alContains cm.1 pt.categories = true
    · simp only [hc, if_pos]
      exact ih _ (hstep cm.2 pt h)
    · simp only [hc, if_neg]
      exact ih _ (hstep cm.2 _ (inSync_create pt _ h (Bool.not_eq_true _ ▸ hc)))

theorem inSync_loadParsed (pt : Pattern) (root : Option (List XmlNode))
    (h : InSyncP pt) : InSyncP (pt.loadParsed root) := by
  unfold Pattern.loadParsed
  cases PatternFile.loadParsed root with
  | none => exact h
  | some m => exact inSync_addDict pt m h

/-- C9: the lock-step invariant between orders and categories (same category
keys, every recorded name keyed in the item map and every key recorded)
holds for the empty store and is preserved by every string add, list add,
mapping add, and load. -/
theorem c9_orders_categories_lockstep :
    Pattern.empty.inSync = true
  ∧ (∀ (pt : Pattern) (p : PyStr) (e : Bool), pt.inSync = true →
      (pt.addOne p e).inSync = true)
  ∧ (∀ (pt : Pattern) (ps : List PyStr) (e : Bool), pt.inSync = true →
      (pt.addList ps e).inSync = true)
  ∧ (∀ (pt : Pattern) (m : List (Option PyStr × List PatternItem)), pt.inSync = true →
      (pt.addDict m).inSync = true)
  ∧ (∀ (pt : Pattern) (root : Option (List XmlNode)), pt.inSync = true →
      (pt.loadParsed root).inSync = true) := by
  refine ⟨by decide, ?_, ?_, ?_, ?_⟩
  · intro pt p e h
    exact (inSync_iff _).mpr (inSync_addOne pt p e ((inSync_iff _).mp h))
  · intro pt ps e h
    exact (inSync_iff _).mpr (inSync_addList pt ps e ((inSync_iff _).mp h))
  · intro pt m h
    exact (inSync_iff _).mpr (inSync_addDict pt m ((inSync_iff _).mp h))
  · intro pt root h
    exact (inSync_iff _).mpr (inSync_loadParsed pt root ((inSync_iff _).mp h))

/-- C9, witness: the invariant after one concrete add from the empty store,
via the preservation theorem. -/
theorem c9_orders_categories_lockstep_witness :
    (Pattern.empty.addOne (pys "a:n@x") false).inSync = true :=
  c9_orders_categories_lockstep.2.1 Pattern.empty (pys "a:n@x") false (by decide)

/-! ### Claim C10: merging into an earlier regex-named item -/

theorem indexOfChar_append (d : Char) (a b : PyStr) (h : d ∉ a) :
    indexOfChar d (a ++ d :: b) = some a.length := by
  induction a with
  | nil => simp [indexOfChar]
  | cons c a' ih =>
    have hc : ¬ c = d := fun hh => h (hh ▸ List.mem_cons_self _ _)
    have ih' := ih (fun hm => h (List.mem_cons_of_mem _ hm))
    simp [indexOfChar, hc, ih']

theorem findGtZero_append (d : Char) (a b : PyStr) (hne : a ≠ []) (h : d ∉ a) :
    findGtZero d (a ++ d :: b) = true := by
  unfold findGtZero
  rw [indexOfChar_append d a b h]
  cases a with
  | nil => exact absurd rfl hne
  | cons c a' => simp

theorem splitOnce_append (d : Char) (a b : PyStr) (h : d ∉ a) :
    splitOnce d (a ++ d :: b) = (a, b) := by
  induction a with
  | nil => simp [splitOnce]
  | cons c a' ih =>
    have hc : ¬ c = d := fun hh => h (hh ▸ List.mem_cons_self _ _)
    have ih' := ih (fun hm => h (List.mem_cons_of_mem _ hm))
    simp [splitOnce, hc, ih']

/-- C10, counterexample: "n" is not an exact key and regex-matches the
earlier non-null name ".*", yet add("cat:n@x") creates a new ("cat","n")
entry and extends the order, because the ".*" item registered by
add("cat:.*@") is empty and CPython's `if item:` treats it as absent. -/
theorem c10_merge_counterexample :
    ((Pattern.empty.addOne (pys "cat:.*@") false).addOne (pys "cat:n@x") false).orders ≠
      (Pattern.empty.addOne (pys "cat:.*@") false).orders ∧
    (alGet (some (pys "n"))
      ((alGet (some (pys "cat"))
        (((Pattern.empty.addOne (pys "cat:.*@") false).addOne (pys "cat:n@x") false).categories)).getD
        [])).isSome = true := by
  refine ⟨by decide, by decide⟩

/-- C10, amended: when Pattern.add parses "category:name@patterns", the name
is no exact key, the scan of the category's insertion order first regex-hits
the recorded name p, and the item under p is non-empty (CPython's `if item:`
truthiness), then the patterns are merged into that item by item.add, the
order sequence is unchanged, and name does not become a key. -/
theorem c10_merge_into_regex_item (pt : Pattern) (category name value : PyStr)
    (items : List (Option PyStr × PatternItem)) (ord l1 l2 : List (Option PyStr))
    (p : PyStr) (it : PatternItem)
    (hcat_ne : category ≠ []) (hcat_colon : ':' ∉ category)
    (hname_ne : name ≠ []) (hname_at : '@' ∉ name)
    (hstable : ensureCategory (ensureCategory category) = ensureCategory category)
    (hc : alGet (some (ensureCategory category)) pt.categories = some items)
    (ho : alGet (some (ensureCategory category)) pt.orders = some ord)
    (hnokey : alGet (some name) items = none)
    (hdec : ord = l1 ++ some p :: l2)
    (hmiss : ∀ x ∈ l1, orderHit x (some name) = false)
    (hhit : orderHit (some p) (some name) = true)
    (hp : alGet (some p) items = some it)
    (hlen : itemLen it > 0) :
    pt.addOne (category ++ ':' :: (name ++ '@' :: value)) false =
      ⟨pt.orders,
       alSet (some (ensureCategory category))
         (alSet (some p) (it.add value false none none) items) pt.categories⟩ ∧
    alGet (some name)
      (alSet (some p) (it.add value false none none) items) = none := by
  have hpn : some p ≠ (some name : Option PyStr) := by
    intro he
    rw [he] at hp
    rw [hp] at hnokey
    exact Option.noConfusion hnokey
  constructor
  · have hf1 : findGtZero ':' (category ++ ':' :: (name ++ '@' :: value)) = true :=
      findGtZero_append ':' category (name ++ '@' :: value) hcat_ne hcat_colon
    have hs1 : splitOnce ':' (category ++ ':' :: (name ++ '@' :: value)) =
        (category, name ++ '@' :: value) :=
      splitOnce_append ':' category (name ++ '@' :: value) hcat_colon
    have hf2 : findGtZero '@' (name ++ '@' :: value) = true :=
      findGtZero_append '@' name value hname_ne hname_at
    have hs2 : splitOnce '@' (name ++ '@' :: value) = (name, value) :=
      splitOnce_append '@' name value hname_at
    have hcont : alContains (some (ensureCategory category)) pt.categories = true := by
      simp [alContains, hc]
    have hkey : pt.ensureKey (ensureCategory category) (some name) true = some (some p) := by
      have hncont : alContains (some name) items = false := by
        simp [alContains, hnokey]
      simp only [Pattern.ensureKey, hstable, hc, hncont, Bool.false_eq_true, if_false,
        ho, Option.getD_some, hdec]
      rw [ensureKeyScan_append_hit _ _ _ _ hmiss hhit]
    simp [Pattern.addOne, hf1, hs1, hf2, hs2, Pattern.addParsed, hcont,
      Pattern.addResolve, hkey, hstable, hc, hp, hlen]
  · rw [alGet_alSet_other _ _ _ _ (fun he => hpn he.symm)]
    exact hnokey

/-- C10, witness: add("cat:n@x") merges into the non-empty ".*" item
registered by add("cat:.*@inc"): the order is unchanged and "n" is no key. -/
theorem c10_merge_into_regex_item_witness :
    (Pattern.empty.addOne (pys "cat:.*@inc") false).addOne
        (pys "cat" ++ ':' :: (pys "n" ++ '@' :: pys "x")) false =
      ⟨(Pattern.empty.addOne (pys "cat:.*@inc") false).orders,
       alSet (some (ensureCategory (pys "cat")))
         (alSet (some (pys ".*"))
           ((⟨some (pys "cat"), some (pys ".*"), false, [pys "inc"], [], []⟩ : PatternItem).add
             (pys "x") false none none)
           [(some (pys ".*"), ⟨some (pys "cat"), some (pys ".*"), false, [pys "inc"], [], []⟩)])
         (Pattern.empty.addOne (pys "cat:.*@inc") false).categories⟩ ∧
    alGet (some (pys "n"))
      (alSet (some (pys ".*"))
        ((⟨some (pys "cat"), some (pys ".*"), false, [pys "inc"], [], []⟩ : PatternItem).add
          (pys "x") false none none)
        [(some (pys ".*"), ⟨some (pys "cat"), some (pys ".*"), false, [pys "inc"], [], []⟩)]) =
      none :=
  c10_merge_into_regex_item (Pattern.empty.addOne (pys "cat:.*@inc") false)
    (pys "cat") (pys "n") (pys "x")
    [(some (pys ".*"), ⟨some (pys "cat"), some (pys ".*"), false, [pys "inc"], [], []⟩)]
    [some (pys ".*")] [] [] (pys ".*")
    ⟨some (pys "cat"), some (pys ".*"), false, [pys "inc"], [], []⟩
    (by decide) (by decide) (by decide) (by decide) (by decide) (by decide) (by decide)
    (by decide) (by decide) (by intro x hx; simp at hx) (by decide) (by decide) (by decide)

/-! ### Claim C7: malformed substitution tokens -/

theorem splitChar_no_delim (d : Char) (t : PyStr) (h : d ∉ t) : splitChar d t = [t] := by
  induction t with
  | nil => rfl
  | cons c rest ih =>
    have hc : ¬ c = d := fun hh => h (hh ▸ List.mem_cons_self _ _)
    have ih' := ih (fun hm => h (List.mem_cons_of_mem _ hm))
    simp [splitChar, hc, ih']

/-- C7, counterexample: the token "~a~b~c~d" has a mismatched delimiter
count (four '~' instead of three); it passes the substitution prefix test
but re.split yields five parts, so PatternItem.split drops it silently:
it becomes neither an include pattern (as the claim asserts) nor anything
else. -/
theorem c7_malformed_token_counterexample :
    splitPatterns none (pys "~a~b~c~d") none = ([], [], []) ∧
    splitPatterns none (pys "~a~b~c~d") none ≠ ([pys "~a~b~c~d"], [], []) := by
  refine ⟨by decide, by decide⟩

/-- C7, amended: a stripped, comma-free token that fails the substitution
prefix test (is_replace_str false) falls through to include/exclude
classification: with a leading '!' it becomes an exclude pattern, otherwise
an include pattern; but a token that passes the prefix test while splitting
into a number of parts other than four (i.e. with more than three
occurrences of its leading delimiter) is silently dropped.  No case raises. -/
theorem c7_malformed_token_fallthrough (c : Char) (t' : PyStr)
    (hstrip : pyStrip (c :: t') = c :: t')
    (hcomma : ',' ∉ (c :: t')) :
    (is_replace_str (c :: t') = false → startsWithCh '!' (c :: t') = false →
      splitPatterns none (c :: t') none = ([c :: t'], [], []))
  ∧ (is_replace_str (c :: t') = false → startsWithCh '!' (c :: t') = true →
      splitPatterns none (c :: t') none = ([], [t'], []))
  ∧ (is_replace_str (c :: t') = true → (splitChar c (c :: t')).length ≠ 4 →
      splitPatterns none (c :: t') none = ([], [], [])) := by
  have hone : splitChar ',' (c :: t') = [c :: t'] :=
    splitChar_no_delim ',' _ hcomma
  refine ⟨?_, ?_, ?_⟩
  · intro hrep hbang
    simp [splitPatterns, hone, splitGo, hstrip, hrep, hbang]
  · intro hrep hbang
    simp [splitPatterns, hone, splitGo, hstrip, hrep, hbang]
  · intro hrep hlen
    simp only [splitPatterns, hone, splitGo, hstrip, hrep, if_true]
    rcases hl : splitChar c (c :: t') with _ | ⟨a, _ | ⟨b, _ | ⟨c3, _ | ⟨d4, _ | rest⟩⟩⟩⟩ <;>
      simp_all [splitGo]

/-- C7, witness: "~a~b" (two delimiters, prefix test fails) falls through to
an include pattern. -/
theorem c7_malformed_token_fallthrough_witness :
    splitPatterns none (pys "~a~b") none = ([pys "~a~b"], [], []) :=
  (c7_malformed_token_fallthrough '~' (pys "a~b") (by decide) (by decide)).1
    (by decide) (by decide)

/-! ### Claim C8: the definition-file load entry point -/

/-- C8, counterexample: on the unreadable/unparsable path PatternFile.load
executes a bare `return`, i.e. yields None, not an empty mapping. -/
theorem c8_load_failure_counterexample :
    PatternFile.loadParsed none ≠ some [] := by decide

/-- C8, amended: on a read/parse failure (and on a document with no child
nodes) PatternFile.load emits a diagnostic and returns None rather than an
empty mapping or an exception; Pattern.load feeds that None to Pattern.add,
which silently ignores it, so the store is unchanged; on success the loader
returns a mapping from category to the ordered list of parsed items. -/
theorem c8_load_failure_yields_none :
    PatternFile.loadParsed none = none
  ∧ PatternFile.loadParsed (some []) = none
  ∧ (∀ pt : Pattern, pt.loadParsed none = pt)
  ∧ (∀ pt : Pattern, pt.loadParsed (some []) = pt)
  ∧ (∀ (n : XmlNode) (ns : List XmlNode),
      (PatternFile.loadParsed (some (n :: ns))).isSome = true)
  ∧ PatternFile.loadParsed
      (some [XmlNode.mk (pys "patterns") [(pys "category", pys "project")]
        [XmlNode.mk (pys "pattern") [(pys "value", pys "foo.*")] []]]) =
      some [(some (pys "project"),
        [⟨some (pys "project"), none, false, [pys "foo.*"], [], []⟩])] := by
  refine ⟨by decide, by decide, ?_, ?_, ?_, by decide⟩
  · intro pt
    simp [Pattern.loadParsed, PatternFile.loadParsed]
  · intro pt
    simp [Pattern.loadParsed, PatternFile.loadParsed]
  · intro n ns
    simp [PatternFile.loadParsed]

/-! ### Claim C6: round-trip of parse and serialization.
Facts about pyStrip. -/

theorem length_dropWhile_le (P : Char → Bool) (l : PyStr) :
    (l.dropWhile P).length ≤ l.length := by
  induction l with
  | nil => simp
  | cons c rest ih =>
    by_cases hc : P c = true
    · rw [List.dropWhile_cons_of_pos hc]
      exact Nat.le_succ_of_le ih
    · rw [List.dropWhile_cons_of_neg hc]

theorem head_dropWhile_false (P : Char → Bool) (l : PyStr) (c : Char)
    (h : (l.dropWhile P).head? = some c) : P c = false := by
  induction l with
  | nil => simp at h
  | cons x rest ih =>
    by_cases hx : P x = true
    · rw [List.dropWhile_cons_of_pos hx] at h
      exact ih h
    · rw [List.dropWhile_cons_of_neg hx] at h
      simp only [List.head?_cons, Option.some.injEq] at h
      rw [← h]
      exact Bool.not_eq_true _ ▸ hx

theorem mem_pyStrip (x : Char) (s : PyStr) (h : x ∈ pyStrip s) : x ∈ s := by
  unfold pyStrip at h
  rw [List.mem_reverse] at h
  have h2 := (List.dropWhile_sublist _).mem h
  rw [List.mem_reverse] at h2
  exact (List.dropWhile_sublist _).mem h2

theorem pyStrip_head (s : PyStr) (c : Char) (h : (pyStrip s).head? = some c) :
    isPySpace c = false := by
  unfold pyStrip at h
  rw [List.head?_reverse] at h
  set u := s.dropWhile isPySpace with hu
  set X := u.reverse.dropWhile isPySpace with hX
  have hXne : X ≠ [] := by
    intro hnil
    rw [hnil] at h
    simp at h
  have hdecomp : u.reverse.takeWhile isPySpace ++ X = u.reverse := by
    rw [hX]
    exact List.takeWhile_append_dropWhile _ _
  have h2 : u.reverse.getLast? = some c := by
    rw [← hdecomp, List.getLast?_append_of_ne_nil _ hXne]
    exact h
  rw [List.getLast?_reverse] at h2
  exact head_dropWhile_false isPySpace s c h2

theorem pyStrip_last (s : PyStr) (c : Char) (h : (pyStrip s).getLast? = some c) :
    isPySpace c = false := by
  unfold pyStrip at h
  rw [List.getLast?_reverse] at h
  exact head_dropWhile_false isPySpace _ c h

theorem pyStrip_eq_self_of (s : PyStr)
    (hhead : ∀ c, s.head? = some c → isPySpace c = false)
    (hlast : ∀ c, s.getLast? = some c → isPySpace c = false) :
    pyStrip s = s := by
  cases s with
  | nil => rfl
  | cons x t =>
    have hx : isPySpace x = false := hhead x rfl
    unfold pyStrip
    rw [List.dropWhile_cons_of_neg (by rw [hx]; exact Bool.false_ne_true)]
    have hex : ∃ c w, (x :: t).reverse = c :: w := by
      cases hr : (x :: t).reverse with
      | nil =>
        rw [List.reverse_eq_nil_iff] at hr
        exact absurd hr (List.cons_ne_nil x t)
      | cons c w => exact ⟨c, w, rfl⟩
    obtain ⟨c, w, hr⟩ := hex
    have hc : isPySpace c = false := by
      apply hlast
      rw [← List.head?_reverse, hr]
      rfl
    rw [hr, List.dropWhile_cons_of_neg (by rw [hc]; exact Bool.false_ne_true), ← hr,
      List.reverse_reverse]

theorem pyStrip_idem (s : PyStr) : pyStrip (pyStrip s) = pyStrip s :=
  pyStrip_eq_self_of _ (pyStrip_head s) (pyStrip_last s)

/-! Facts about splitChar and joinChar. -/

theorem splitChar_ne_nil (d : Char) (cs : PyStr) : splitChar d cs ≠ [] := by
  induction cs with
  | nil => simp [splitChar]
  | cons c rest ih =>
    by_cases hc : c = d
    · simp [splitChar, hc]
    · simp only [splitChar, hc, Bool.false_eq_true, if_false]
      cases h : splitChar d rest with
      | nil => exact absurd h ih
      | cons piece more => simp

theorem splitChar_not_mem_piece (d : Char) (cs : PyStr) :
    ∀ piece ∈ splitChar d cs, d ∉ piece := by
  induction cs with
  | nil =>
    intro piece hp
    simp [splitChar] at hp
    subst hp
    simp
  | cons c rest ih =>
    intro piece hp
    by_cases hc : c = d
    · simp only [splitChar, hc, if_true] at hp
      rcases List.mem_cons.mp hp with hp | hp
      · subst hp; simp
      · exact ih piece hp
    · simp only [splitChar, hc, Bool.false_eq_true, if_false] at hp
      cases h : splitChar d rest with
      | nil => exact absurd h (splitChar_ne_nil d rest)
      | cons q more =>
        rw [h] at hp
        rcases List.mem_cons.mp hp with hp | hp
        · subst hp
          intro hm
          rcases List.mem_cons.mp hm with hm | hm
          · exact hc hm.symm
          · exact ih q (h ▸ List.mem_cons_self _ _) hm
        · exact ih piece (h ▸ List.mem_cons_of_mem _ hp)

theorem splitChar_piece_subset (d : Char) (cs : PyStr) :
    ∀ piece ∈ splitChar d cs, ∀ x ∈ piece, x ∈ cs := by
  induction cs with
  | nil =>
    intro piece hp x hx
    simp [splitChar] at hp
    subst hp
    simp at hx
  | cons c rest ih =>
    intro piece hp x hx
    by_cases hc : c = d
    · simp only [splitChar, hc, if_true] at hp
      rcases List.mem_cons.mp hp with hp | hp
      · subst hp; simp at hx
      · exact List.mem_cons_of_mem _ (ih piece hp x hx)
    · simp only [splitChar, hc, Bool.false_eq_true, if_false] at hp
      cases h : splitChar d rest with
      | nil => exact absurd h (splitChar_ne_nil d rest)
      | cons q more =>
        rw [h] at hp
        rcases List.mem_cons.mp hp with hp | hp
        · subst hp
          rcases List.mem_cons.mp hx with hx | hx
          · exact hx ▸ List.mem_cons_self _ _
          · exact List.mem_cons_of_mem _ (ih q (h ▸ List.mem_cons_self _ _) x hx)
        · exact List.mem_cons_of_mem _ (ih piece (h ▸ List.mem_cons_of_mem _ hp) x hx)

theorem splitChar_cons_delim (d : Char) (rest : PyStr) :
    splitChar d (d :: rest) = [] :: splitChar d rest := by
  simp [splitChar]

theorem splitChar_append_not_mem (d : Char) (a rest : PyStr) (h : d ∉ a) :
    splitChar d (a ++ d :: rest) = a :: splitChar d rest := by
  induction a with
  | nil => exact splitChar_cons_delim d rest
  | cons c a' ih =>
    have hc : ¬ c = d := fun hh => h (hh ▸ List.mem_cons_self _ _)
    have ih' := ih (fun hm => h (List.mem_cons_of_mem _ hm))
    show splitChar d (c :: (a' ++ d :: rest)) = (c :: a') :: splitChar d rest
    simp only [splitChar, hc, Bool.false_eq_true, if_false, ih']

theorem splitChar_join (d : Char) (ts : List PyStr) (hne : ts ≠ [])
    (h : ∀ t ∈ ts, d ∉ t) : splitChar d (joinChar d ts) = ts := by
  induction ts with
  | nil => exact absurd rfl hne
  | cons t ts' ih =>
    cases ts' with
    | nil =>
      show splitChar d t = [t]
      exact splitChar_no_delim d t (h t (List.mem_cons_self _ _))
    | cons t2 ts'' =>
      show splitChar d (t ++ d :: joinChar d (t2 :: ts'')) = t :: t2 :: ts''
      rw [splitChar_append_not_mem d t _ (h t (List.mem_cons_self _ _))]
      rw [ih (by simp) (fun x hx => h x (List.mem_cons_of_mem _ hx))]

theorem join_ne_nil (d : Char) (ts : List PyStr) (h1 : ts ≠ [])
    (h2 : ∀ t ∈ ts, t ≠ []) : joinChar d ts ≠ [] := by
  cases ts with
  | nil => exact absurd rfl h1
  | cons t ts' =>
    cases ts' with
    | nil => exact h2 t (List.mem_cons_self _ _)
    | cons a b =>
      show t ++ d :: joinChar d (a :: b) ≠ []
      simp

theorem pyStrip_join (d : Char) (ts : List PyStr)
    (h : ∀ t ∈ ts, pyStrip t = t ∧ t ≠ []) :
    pyStrip (joinChar d ts) = joinChar d ts := by
  induction ts with
  | nil => rfl
  | cons t ts' ih =>
    cases ts' with
    | nil => exact (h t (List.mem_cons_self _ _)).1
    | cons t2 ts'' =>
      have ht := h t (List.mem_cons_self _ _)
      have hJ : joinChar d (t2 :: ts'') ≠ [] :=
        join_ne_nil d _ (by simp) (fun x hx => (h x (List.mem_cons_of_mem _ hx)).2)
      show pyStrip (t ++ d :: joinChar d (t2 :: ts'')) = t ++ d :: joinChar d (t2 :: ts'')
      apply pyStrip_eq_self_of
      · intro c hc
        rw [List.head?_append_of_ne_nil _ ht.2] at hc
        apply pyStrip_head t c
        rw [ht.1]
        exact hc
      · intro c hc
        rw [List.getLast?_append_of_ne_nil _ (by simp : d :: joinChar d (t2 :: ts'') ≠ [])] at hc
        have hc2 : (joinChar d (t2 :: ts'')).getLast? = some c := by
          rw [show d :: joinChar d (t2 :: ts'') = [d] ++ joinChar d (t2 :: ts'') from rfl] at hc
          rw [List.getLast?_append_of_ne_nil _ hJ] at hc
          exact hc
        have hstr := ih (fun x hx => h x (List.mem_cons_of_mem _ hx))
        apply pyStrip_last (joinChar d (t2 :: ts'')) c
        rw [hstr]
        exact hc2

/-! The fixed substitution-prefix regexes accept every canonical rendered
substitution token. -/

def delimPat (d : Char) : List (RAtom × Bool) :=
  [(.chr d, false), (.notChr d, true), (.chr d, false), (.notChr d, true), (.chr d, false)]

theorem nfaStep_d0 (d : Char) : nfaStep (delimPat d) [0] d = [1, 2] := by
  simp [nfaStep, stepAt, delimPat, atomMatch, nfaClosure]

theorem nfaStep_mid12 (d c : Char) (hc : ¬ d = c) :
    nfaStep (delimPat d) [1, 2] c = [1, 2] := by
  simp [nfaStep, stepAt, delimPat, atomMatch, nfaClosure, hc]

theorem nfaStep_mid12_d (d : Char) : nfaStep (delimPat d) [1, 2] d = [3, 4] := by
  simp [nfaStep, stepAt, delimPat, atomMatch, nfaClosure]

theorem nfaStep_mid34 (d c : Char) (hc : ¬ d = c) :
    nfaStep (delimPat d) [3, 4] c = [3, 4] := by
  simp [nfaStep, stepAt, delimPat, atomMatch, nfaClosure, hc]

theorem nfaStep_mid34_d (d : Char) : nfaStep (delimPat d) [3, 4] d = [5] := by
  simp [nfaStep, stepAt, delimPat, atomMatch, nfaClosure]

theorem nfaRun_skip12 (d : Char) (p rest : PyStr) (hp : d ∉ p) :
    nfaRun (delimPat d) 5 [1, 2] (p ++ rest) = nfaRun (delimPat d) 5 [1, 2] rest := by
  induction p with
  | nil => rfl
  | cons c p' ih =>
    have hc : ¬ d = c := fun hh => hp (hh ▸ List.mem_cons_self _ _)
    show nfaRun (delimPat d) 5 [1, 2] (c :: (p' ++ rest)) = _
    rw [nfaRun, nfaStep_mid12 d c hc]
    rw [ih (fun hm => hp (List.mem_cons_of_mem _ hm))]
    simp [nfaRun]

theorem nfaRun_skip34 (d : Char) (p rest : PyStr) (hp : d ∉ p) :
    nfaRun (delimPat d) 5 [3, 4] (p ++ rest) = nfaRun (delimPat d) 5 [3, 4] rest := by
  induction p with
  | nil => rfl
  | cons c p' ih =>
    have hc : ¬ d = c := fun hh => hp (hh ▸ List.mem_cons_self _ _)
    show nfaRun (delimPat d) 5 [3, 4] (c :: (p' ++ rest)) = _
    rw [nfaRun, nfaStep_mid34 d c hc]
    rw [ih (fun hm => hp (List.mem_cons_of_mem _ hm))]
    simp [nfaRun]

theorem nfaAccepts_delim (d : Char) (p sb : PyStr) (hp : d ∉ p) (hsb : d ∉ sb) :
    nfaAccepts (delimPat d) (d :: (p ++ d :: (sb ++ [d]))) = true := by
  show nfaRun (delimPat d) 5 (nfaClosure (delimPat d) 0) (d :: (p ++ d :: (sb ++ [d]))) = true
  rw [show nfaClosure (delimPat d) 0 = [0] from rfl]
  rw [nfaRun, nfaStep_d0]
  rw [nfaRun_skip12 d p _ hp]
  rw [nfaRun, nfaStep_mid12_d]
  rw [nfaRun_skip34 d sb _ hsb]
  rw [nfaRun, nfaStep_mid34_d]
  simp [nfaRun]

/-- The delimiter a substitution triple is rendered with: '=' when chained,
'~' otherwise. -/
def delimOf (rp : PatternReplaceItem) : Char := if rp.cont then '=' else '~'

theorem renderSubst_cons (rp : PatternReplaceItem) :
    renderSubst rp =
      delimOf rp :: (rp.pattern.getD [] ++ delimOf rp :: (rp.subst ++ [delimOf rp])) := by
  simp [renderSubst, delimOf]

theorem delimOf_eq (rp : PatternReplaceItem) : delimOf rp = '=' ∨ delimOf rp = '~' := by
  unfold delimOf
  cases rp.cont <;> simp

theorem is_replace_str_delim (d : Char) (p sb : PyStr) (hd : d = '=' ∨ d = '~')
    (hp : d ∉ p) (hsb : d ∉ sb) :
    is_replace_str (d :: (p ++ d :: (sb ++ [d]))) = true := by
  unfold is_replace_str
  rw [if_pos]
  · rcases hd with hd | hd
    · subst hd
      rw [show replaceRegex1 = delimPat '=' from by decide]
      rw [nfaAccepts_delim '=' p sb hp hsb]
      simp
    · subst hd
      rw [show replaceRegex2 = delimPat '~' from by decide]
      rw [nfaAccepts_delim '~' p sb hp hsb]
      simp
  · constructor
    · simp
    · rcases hd with hd | hd <;> subst hd <;> simp [startsWithCh]

theorem splitChar_render (d : Char) (p sb : PyStr) (hp : d ∉ p) (hsb : d ∉ sb) :
    splitChar d (d :: (p ++ d :: (sb ++ [d]))) = [[], p, sb, []] := by
  rw [splitChar_cons_delim, splitChar_append_not_mem d p _ hp,
    splitChar_append_not_mem d sb _ hsb]
  rfl

theorem is_replace_str_head (c : Char) (t : PyStr) (h : is_replace_str (c :: t) = true) :
    c = '=' ∨ c = '~' := by
  unfold is_replace_str at h
  split at h
  case isTrue hcond =>
    have h2 := hcond.2
    simp [startsWithCh] at h2
    exact h2
  case isFalse => exact absurd h (by simp)

theorem is_replace_str_bang (e : PyStr) : is_replace_str ('!' :: e) = false := rfl

/-- A parsed include token: stripped, non-empty, not a substitution, no
leading '!', comma-free. -/
def GoodInc (t : PyStr) : Prop :=
  pyStrip t = t ∧ t ≠ [] ∧ startsWithCh '!' t = false ∧ is_replace_str t = false ∧ ',' ∉ t

/-- A parsed exclude pattern: its re-rendered token is stripped, and it is
comma-free. -/
def GoodExc (e : PyStr) : Prop := pyStrip ('!' :: e) = '!' :: e ∧ ',' ∉ e

/-- A parsed substitution triple: pattern (when any) nonempty and free of
the rendering delimiter and of commas, likewise the replacement. -/
def GoodRep (rp : PatternReplaceItem) : Prop :=
  (∀ p, rp.pattern = some p → p ≠ [] ∧ delimOf rp ∉ p ∧ ',' ∉ p) ∧
  delimOf rp ∉ rp.subst ∧ ',' ∉ rp.subst

theorem split_good (toks : List PyStr) (hc : ∀ t ∈ toks, ',' ∉ t) :
    (∀ i ∈ (splitGo none none toks).1, GoodInc i) ∧
    (∀ e ∈ (splitGo none none toks).2.1, GoodExc e) ∧
    (∀ rp ∈ (splitGo none none toks).2.2, GoodRep rp) := by
  induction toks with
  | nil =>
    refine ⟨?_, ?_, ?_⟩ <;> intro x hx <;> simp [splitGo] at hx
  | cons t ts ih =>
    obtain ⟨ih1, ih2, ih3⟩ := ih (fun x hx => hc x (List.mem_cons_of_mem _ hx))
    have hct : ',' ∉ pyStrip t :=
      fun hm => hc t (List.mem_cons_self _ _) (mem_pyStrip _ _ hm)
    by_cases hrep : is_replace_str (pyStrip t) = true
    · cases hu : pyStrip t with
      | nil =>
        rw [hu] at hrep
        exact absurd hrep (by decide)
      | cons c u' =>
        rw [hu] at hrep hct
        have hcd : c = '=' ∨ c = '~' := is_replace_str_head c u' hrep
        rcases hsp : splitChar c (c :: u') with _ | ⟨a, _ | ⟨b, _ | ⟨s3, _ | ⟨z4, _ | ⟨r5, rest6⟩⟩⟩⟩⟩
        · have hgo : splitGo none none (t :: ts) = splitGo none none ts := by
            simp only [splitGo, hu, hrep, if_true, hsp]
          rw [hgo]
          exact ⟨ih1, ih2, ih3⟩
        · have hgo : splitGo none none (t :: ts) = splitGo none none ts := by
            simp only [splitGo, hu, hrep, if_true, hsp]
          rw [hgo]
          exact ⟨ih1, ih2, ih3⟩
        · have hgo : splitGo none none (t :: ts) = splitGo none none ts := by
            simp only [splitGo, hu, hrep, if_true, hsp]
          rw [hgo]
          exact ⟨ih1, ih2, ih3⟩
        · have hgo : splitGo none none (t :: ts) = splitGo none none ts := by
            simp only [splitGo, hu, hrep, if_true, hsp]
          rw [hgo]
          exact ⟨ih1, ih2, ih3⟩
        · -- exactly four pieces [a, b, s3, z4]
          have hgo : splitGo none none (t :: ts) =
              ((splitGo none none ts).1, (splitGo none none ts).2.1,
               (⟨if b = [] then none else some b, s3,
                 startsWithCh '=' (c :: u')⟩ : PatternReplaceItem) ::
                 (splitGo none none ts).2.2) := by
            simp only [splitGo, hu, hrep, if_true, hsp, Option.getD_none]
          rw [hgo]
          refine ⟨ih1, ih2, ?_⟩
          intro rp hrp
          rcases List.mem_cons.mp hrp with hrp | hrp
          · subst hrp
            have hdelim : delimOf ⟨if b = [] then none else some b, s3,
                startsWithCh '=' (c :: u')⟩ = c := by
              rcases hcd with hcd | hcd <;> subst hcd <;> simp [delimOf, startsWithCh]
            have hbmem : b ∈ splitChar c (c :: u') := by rw [hsp]; simp
            have hsmem : s3 ∈ splitChar c (c :: u') := by rw [hsp]; simp
            have hbnc : c ∉ b := splitChar_not_mem_piece c (c :: u') b hbmem
            have hsnc : c ∉ s3 := splitChar_not_mem_piece c (c :: u') s3 hsmem
            have hbcomma : ',' ∉ b :=
              fun hm => hct (splitChar_piece_subset c (c :: u') b hbmem ',' hm)
            have hscomma : ',' ∉ s3 :=
              fun hm => hct (splitChar_piece_subset c (c :: u') s3 hsmem ',' hm)
            refine ⟨?_, ?_, ?_⟩
            · intro p hp
              by_cases hb : b = []
              · simp [hb] at hp
              · simp only [hb, Bool.false_eq_true, if_false, Option.some.injEq] at hp
                subst hp
                exact ⟨hb, by rw [hdelim]; exact hbnc, hbcomma⟩
            · rw [hdelim]
              exact hsnc
            · exact hscomma
          · exact ih3 rp hrp
        · have hgo : splitGo none none (t :: ts) = splitGo none none ts := by
            simp only [splitGo, hu, hrep, if_true, hsp]
          rw [hgo]
          exact ⟨ih1, ih2, ih3⟩
    · by_cases hbang : startsWithCh '!' (pyStrip t) = true
      · cases hu : pyStrip t with
        | nil => rw [hu] at hbang; exact absurd hbang (by decide)
        | cons c u' =>
          rw [hu] at hrep hbang hct
          have hcb : c = '!' := by simpa [startsWithCh] using hbang
          subst hcb
          have hgo : splitGo none none (t :: ts) =
              ((splitGo none none ts).1, u' :: (splitGo none none ts).2.1,
               (splitGo none none ts).2.2) := by
            simp only [splitGo, hu, hrep, Bool.false_eq_true, if_false, hbang, if_true,
              List.drop_one, List.tail_cons]
          rw [hgo]
          refine ⟨ih1, ?_, ih3⟩
          intro e he
          rcases List.mem_cons.mp he with he | he
          · subst he
            refine ⟨?_, fun hm => hct (List.mem_cons_of_mem _ hm)⟩
            rw [← hu]
            exact pyStrip_idem t
          · exact ih2 e he
      · by_cases hne : pyStrip t ≠ []
        · have hgo : splitGo none none (t :: ts) =
              (pyStrip t :: (splitGo none none ts).1, (splitGo none none ts).2.1,
               (splitGo none none ts).2.2) := by
            simp only [splitGo, hrep, Bool.false_eq_true, if_false, hbang]
            rw [if_pos hne]
          rw [hgo]
          refine ⟨?_, ih2, ih3⟩
          intro i hi
          rcases List.mem_cons.mp hi with hi | hi
          · subst hi
            exact ⟨pyStrip_idem t, hne, Bool.not_eq_true _ ▸ hbang,
              Bool.not_eq_true _ ▸ hrep, hct⟩
          · exact ih1 i hi
        · have hgo : splitGo none none (t :: ts) = splitGo none none ts := by
            simp only [splitGo, hrep, Bool.false_eq_true, if_false, hbang, hne]
          rw [hgo]
          exact ⟨ih1, ih2, ih3⟩

theorem splitGo_cons_of_inc (t : PyStr) (ts : List PyStr) (h : GoodInc t) :
    splitGo none none (t :: ts) =
      (t :: (splitGo none none ts).1, (splitGo none none ts).2.1,
       (splitGo none none ts).2.2) := by
  obtain ⟨h1, h2, h3, h4, _⟩ := h
  simp only [splitGo, h1, h4, Bool.false_eq_true, if_false, h3]
  rw [if_pos h2]

theorem splitGo_cons_of_exc (e : PyStr) (ts : List PyStr) (h : GoodExc e) :
    splitGo none none (('!' :: e) :: ts) =
      ((splitGo none none ts).1, e :: (splitGo none none ts).2.1,
       (splitGo none none ts).2.2) := by
  obtain ⟨h1, _⟩ := h
  simp only [splitGo, h1, is_replace_str_bang, Bool.false_eq_true, if_false]
  simp [startsWithCh]

theorem renderSubst_strip (rp : PatternReplaceItem) :
    pyStrip (renderSubst rp) = renderSubst rp := by
  have hd := delimOf_eq rp
  apply pyStrip_eq_self_of
  · intro c hc
    rw [renderSubst_cons] at hc
    simp only [List.head?_cons, Option.some.injEq] at hc
    subst hc
    rcases hd with hd | hd <;> rw [hd] <;> decide
  · intro c hc
    rw [renderSubst_cons] at hc
    rw [show delimOf rp :: (rp.pattern.getD [] ++ delimOf rp :: (rp.subst ++ [delimOf rp])) =
      (delimOf rp :: (rp.pattern.getD [] ++ delimOf rp :: rp.subst)) ++ [delimOf rp] by
        simp] at hc
    rw [List.getLast?_append_of_ne_nil _ (by simp)] at hc
    simp only [List.getLast?_singleton, Option.some.injEq] at hc
    subst hc
    rcases hd with hd | hd <;> rw [hd] <;> decide

theorem renderSubst_comma (rp : PatternReplaceItem) (h : GoodRep rp) :
    ',' ∉ renderSubst rp := by
  obtain ⟨hpat, _, hsc⟩ := h
  have hd := delimOf_eq rp
  have hdc : ¬ delimOf rp = ',' := by
    rcases hd with hd | hd <;> rw [hd] <;> decide
  rw [renderSubst_cons]
  intro hm
  simp only [List.mem_cons, List.mem_append] at hm
  rcases hm with hm | (hm | (hm | (hm | hm)))
  · exact hdc hm.symm
  · cases hp : rp.pattern with
    | none => rw [hp] at hm; simp at hm
    | some p => rw [hp] at hm; exact (hpat p hp).2.2 hm
  · exact hdc hm.symm
  · exact hsc hm
  · simp at hm
    exact hdc hm.symm

theorem splitGo_cons_of_rep (rp : PatternReplaceItem) (ts : List PyStr) (h : GoodRep rp) :
    splitGo none none (renderSubst rp :: ts) =
      ((splitGo none none ts).1, (splitGo none none ts).2.1,
       rp :: (splitGo none none ts).2.2) := by
  obtain ⟨hpat, hsnd, _⟩ := h
  have hd := delimOf_eq rp
  have hp0 : delimOf rp ∉ rp.pattern.getD [] := by
    cases hp : rp.pattern with
    | none => simp
    | some p => exact (hpat p hp).2.1
  have hstrip : pyStrip (renderSubst rp) = renderSubst rp := renderSubst_strip rp
  have hrepstr : is_replace_str (renderSubst rp) = true := by
    rw [renderSubst_cons]
    exact is_replace_str_delim _ _ _ hd hp0 hsnd
  have hsplit : (match renderSubst rp with
      | c :: _ => splitChar c (renderSubst rp) | [] => []) =
      [[], rp.pattern.getD [], rp.subst, []] := by
    rw [renderSubst_cons]
    show splitChar (delimOf rp) (delimOf rp ::
      (rp.pattern.getD [] ++ delimOf rp :: (rp.subst ++ [delimOf rp]))) = _
    exact splitChar_render _ _ _ hp0 hsnd
  have hcont : startsWithCh '=' (renderSubst rp) = rp.cont := by
    rw [renderSubst_cons]
    show decide (delimOf rp = '=') = rp.cont
    unfold delimOf
    cases rp.cont <;> simp
  simp only [splitGo, hstrip, hrepstr, if_true, hsplit, Option.getD_none, hcont]
  have hfix : (⟨if rp.pattern.getD [] = [] then none else some (rp.pattern.getD []),
      rp.subst, rp.cont⟩ : PatternReplaceItem) = rp := by
    cases hp : rp.pattern with
    | none =>
      simp only [hp, Option.getD_none]
      rw [if_pos trivial, ← hp]
    | some p =>
      have hne := (hpat p hp).1
      simp only [hp, Option.getD_some]
      rw [if_neg hne, ← hp]
  rw [hfix]

theorem splitGo_append_incs (incs ts : List PyStr) (h : ∀ t ∈ incs, GoodInc t) :
    splitGo none none (incs ++ ts) =
      (incs ++ (splitGo none none ts).1, (splitGo none none ts).2.1,
       (splitGo none none ts).2.2) := by
  induction incs with
  | nil => simp
  | cons t incs' ih =>
    rw [List.cons_append, splitGo_cons_of_inc t _ (h t (List.mem_cons_self _ _)),
      ih (fun x hx => h x (List.mem_cons_of_mem _ hx))]
    rfl

theorem splitGo_append_excs (excs : List PyStr) (ts : List PyStr)
    (h : ∀ e ∈ excs, GoodExc e) :
    splitGo none none (excs.map (fun e => '!' :: e) ++ ts) =
      ((splitGo none none ts).1, excs ++ (splitGo none none ts).2.1,
       (splitGo none none ts).2.2) := by
  induction excs with
  | nil => simp
  | cons e excs' ih =>
    rw [List.map_cons, List.cons_append,
      splitGo_cons_of_exc e _ (h e (List.mem_cons_self _ _)),
      ih (fun x hx => h x (List.mem_cons_of_mem _ hx))]
    rfl

theorem splitGo_reps (reps : List PatternReplaceItem) (h : ∀ rp ∈ reps, GoodRep rp) :
    splitGo none none (reps.map renderSubst) = ([], [], reps) := by
  induction reps with
  | nil => rfl
  | cons rp reps' ih =>
    rw [List.map_cons, splitGo_cons_of_rep rp _ (h rp (List.mem_cons_self _ _)),
      ih (fun x hx => h x (List.mem_cons_of_mem _ hx))]

/-- C6: parse/serialize round trip.  Build a PatternItem from an arbitrary
inline pattern string (category kept, the default anonymous name); split the
item's re-serialized pattern list (the patterns part of __str__, which
renders excludes with a leading '!' and substitutions between '=' delimiters
when chained and '~' when not) exactly as PatternItem.split would; the
result is the same include list, the same exclude list and the same ordered
substitution triples. -/
theorem c6_parse_serialize_roundtrip (s : PyStr) (category : Option PyStr) :
    (splitPatterns none (patternsStr (mkPatternItem category (some s) false none)) none =
      ((mkPatternItem category (some s) false none).incl,
       (mkPatternItem category (some s) false none).excl,
       (mkPatternItem category (some s) false none).subst))
  ∧ ∀ rp ∈ (mkPatternItem category (some s) false none).subst,
      (renderSubst rp).head? = some (if rp.cont then '=' else '~') := by
  refine ⟨?_, ?_⟩
  case refine_2 =>
    intro rp _
    rw [renderSubst_cons]
    rfl
  have hitem : mkPatternItem category (some s) false none =
      ⟨category, none, false, (splitPatterns none s none).1,
       (splitPatterns none s none).2.1, (splitPatterns none s none).2.2⟩ := by
    by_cases hs : s = []
    · subst hs
      rfl
    · simp [mkPatternItem, hs, PatternItem.add]
  rw [hitem]
  obtain ⟨g1, g2, g3⟩ := split_good (splitChar ',' (pyStrip s))
    (splitChar_not_mem_piece ',' (pyStrip s))
  have hP : splitGo none none (splitChar ',' (pyStrip s)) = splitPatterns none s none := rfl
  rw [hP] at g1 g2 g3
  set incs := (splitPatterns none s none).1 with hincs
  set excs := (splitPatterns none s none).2.1 with hexcs
  set reps := (splitPatterns none s none).2.2 with hreps
  show splitPatterns none
      (joinChar ',' (incs ++ excs.map (fun e => '!' :: e) ++ reps.map renderSubst))
      none = (incs, excs, reps)
  set toks := incs ++ excs.map (fun e => '!' :: e) ++ reps.map renderSubst with htoks
  have htokfacts : ∀ t ∈ toks, (pyStrip t = t ∧ t ≠ []) ∧ ',' ∉ t := by
    intro t ht
    rw [htoks] at ht
    rcases List.mem_append.mp ht with ht2 | ht2
    · rcases List.mem_append.mp ht2 with ht3 | ht3
      · obtain ⟨a1, a2, _, _, a5⟩ := g1 t ht3
        exact ⟨⟨a1, a2⟩, a5⟩
      · obtain ⟨e, he, rfl⟩ := List.mem_map.mp ht3
        obtain ⟨b1, b2⟩ := g2 e he
        refine ⟨⟨b1, by simp⟩, ?_⟩
        intro hm
        rcases List.mem_cons.mp hm with hm | hm
        · exact absurd hm (by decide)
        · exact b2 hm
    · obtain ⟨rp, hrp, rfl⟩ := List.mem_map.mp ht2
      exact ⟨⟨renderSubst_strip rp, by rw [renderSubst_cons]; simp⟩,
        renderSubst_comma rp (g3 rp hrp)⟩
  by_cases hne : toks = []
  · rw [hne]
    rw [htoks] at hne
    rcases List.append_eq_nil.mp hne with ⟨hab, hcrep⟩
    rcases List.append_eq_nil.mp hab with ⟨h1, h2⟩
    rw [h1, List.map_eq_nil_iff.mp h2, List.map_eq_nil_iff.mp hcrep]
    rfl
  · have hjoin : pyStrip (joinChar ',' toks) = joinChar ',' toks :=
      pyStrip_join ',' toks (fun t ht => (htokfacts t ht).1)
    show splitGo none none (splitChar ',' (pyStrip (joinChar ',' toks))) = (incs, excs, reps)
    rw [hjoin, splitChar_join ',' toks hne (fun t ht => (htokfacts t ht).2)]
    rw [htoks, List.append_assoc]
    rw [splitGo_append_incs incs _ g1]
    rw [splitGo_append_excs excs _ g2]
    rw [splitGo_reps reps g3]
    simp
